import Mathlib

/-!
Shallow embedding of `TaskProvider.obtain` and `TaskProvider.release`
(lobster, `lobster/core/source.py`) together with the store-facing state they
drive.  The `UnitStore` itself is external to the scheduler; its three calls
used by `obtain` (`pop_unmerged_tasks`, `work_left`, `pop_units`) are modelled
as oracle functions collected in `Store`.  Machine integers are modelled as
`Int`/`Nat`; the Python float divisions inside `obtain` are modelled exactly
over `ℚ` (the code divides small integer quantities, where IEEE doubles are
exact).  Python `dict`s are modelled as insertion-ordered association lists.
-/

namespace Lobster

/-- A resource category (`config.categories` entry): name, cores per task and
the optional cap on simultaneous tasks.  `tasks = 0` encodes the absent cap
(falsy `cat.tasks` in the source). -/
structure Category where
  name : String
  cores : Nat
  tasks : Nat
deriving Repr, DecidableEq

/-- The slice of a workflow the scheduler reads: label, category name, merge
target size, dependent workflow labels and the merge-cleanup flag. -/
structure Workflow where
  label : String
  category : String
  merge_size : Int
  dependents : List String
  merge_cleanup : Bool
deriving Repr, DecidableEq

/-- The slice of the configuration used by `obtain`/`release`:
`config.workflows`, `config.categories` and `config.advanced.payload`. -/
structure Config where
  workflows : List Workflow
  categories : List Category
  payload : Nat

/-- One element of the scheduler's `taskinfos` list: the source's 6-tuple
`(id, label, files, lumis, unique_arg, merge)` restricted to the fields the
scheduling logic inspects (`id`, `label` and the merge flag; files, lumis and
the unique argument are opaque payload passed through to the handler). -/
structure TaskInfo where
  id : Nat
  label : String
  merge : Bool
deriving Repr, DecidableEq

/-- Oracle model of the `UnitStore` calls issued by `obtain`:
`pop_unmerged_tasks(label, merge_size, max_tasks)`,
`work_left(label) = (complete, units_left, tasks_left)` and
`pop_units(label, ntasks, taper)` (the two-argument form uses the default
`taper = 1.0`). -/
structure Store where
  popUnmerged : String → Int → Nat → List TaskInfo
  workLeft : String → Bool × Nat × ℚ
  popUnits : String → Nat → ℚ → List TaskInfo

/-- First category of a given name in the configuration
(`getattr(self.config.categories, name)`). -/
def findCat (cfg : Config) (name : String) : Option Category :=
  cfg.categories.find? (fun c => c.name == name)

/-- Cores of the named category (0 when the name is unknown; the source would
raise on an unknown name, which the claims never exercise). -/
def catCores (cfg : Config) (name : String) : Nat :=
  ((findCat cfg name).map Category.cores).getD 0

/-- First workflow of a given label (`getattr(self.config.workflows, label)`). -/
def findWflow (cfg : Config) (label : String) : Option Workflow :=
  cfg.workflows.find? (fun w => w.label == label)

/-- Category name of the labelled workflow (used to tag task descriptors). -/
def wflowCategoryName (cfg : Config) (label : String) : String :=
  ((findWflow cfg label).map Workflow.category).getD ""

/-- `tasks.get(name, 0)` on the queue snapshot dictionary. -/
def queueGet (queue : List (String × Nat)) (name : String) : Nat :=
  (((queue.find? (fun p => p.1 == name))).map Prod.snd).getD 0

/-- The first-loop skip test of `obtain`:
`if not complete and tasks_left < 1.: continue elif units_left == 0: continue`.
A workflow is skipped iff it is incomplete with less than one task of work
left, or it has no units left at all. -/
def skipWflow (st : Store) (w : Workflow) : Bool :=
  let r := st.workLeft w.label
  (!r.1 && r.2.2 < 1) || r.2.1 == 0

/-- Workflows that survive the skip test and hence contribute to `sizes` and
`wflows` in the first loop of `obtain`. -/
def included (cfg : Config) (st : Store) : List Workflow :=
  cfg.workflows.filter (fun w => !skipWflow st w)

/-- The share weight a workflow contributes to its category:
`int(math.ceil(tasks_left)) * wflow.category.cores`. -/
def wweight (cfg : Config) (st : Store) (w : Workflow) : Int :=
  ⌈(st.workLeft w.label).2.2⌉ * (catCores cfg w.category : Int)

/-- `sizes[name]`: summed share weights of the included workflows of a
category. -/
def sizes (cfg : Config) (st : Store) (name : String) : Int :=
  (((included cfg st).filter (fun w => w.category == name)).map
    (wweight cfg st)).sum

/-- Whether `name in sizes`, i.e. some included workflow belongs to the
category. -/
def catPresent (cfg : Config) (st : Store) (name : String) : Bool :=
  (included cfg st).any (fun w => w.category == name)

/-- `count = sum(sizes.values())`: every included workflow counted once. -/
def countTotal (cfg : Config) (st : Store) : Int :=
  ((included cfg st).map (wweight cfg st)).sum

/-- The label/weight pairs of one category's `wflows[cat][0]` (complete) or
`wflows[cat][1]` (incomplete) dictionary, in workflow insertion order. -/
def catPairs (cfg : Config) (st : Store) (name : String) (complete : Bool) :
    List (String × Int) :=
  (((included cfg st).filter
      (fun w => w.category == name && (st.workLeft w.label).1 == complete)).map
    (fun w => (w.label, wweight cfg st w)))

/-- `need = total + max(int(0.1 * total), payload) - Σ cores(c)·queued(c)`.
`int(0.1 * total)` truncates the float product, which equals `total / 10`
for every realistic core count (the relative error of the IEEE constant 0.1
never carries the product across an integer boundary below 2^52). -/
def needCores (cfg : Config) (total : Nat) (queue : List (String × Nat)) : Int :=
  (total : Int) + max ((total / 10 : Nat) : Int) (cfg.payload : Int)
    - (queue.map (fun nq => (catCores cfg nq.1 : Int) * (nq.2 : Int))).sum

/-- `hunger = max(need, 0)` at the start of `obtain`. -/
def hungerInit (cfg : Config) (total : Nat) (queue : List (String × Nat)) : Int :=
  max (needCores cfg total queue) 0

/-- Sort key of a category: `-cat.tasks * cat.cores if cat.tasks else None`. -/
def catKey (c : Category) : Option Int :=
  if c.tasks == 0 then none else some (-((c.tasks : Int) * (c.cores : Int)))

/-- The order produced by `sorted(..., key=helper, reverse=True)` under
Python 2 semantics, where `None` compares below every integer: `a` sorts no
later than `b` iff `a`'s key is not smaller in that order.  Capped categories
therefore come first, in ascending `tasks*cores` (smallest task limit first),
followed by the uncapped categories. -/
def keyBefore : Option Int → Option Int → Bool
  | none, none => true
  | none, some _ => false
  | some _, none => true
  | some a, some b => b ≤ a

/-- Stable insertion preserving `keyBefore` order (ties keep insertion
order, matching Python's stable sort). -/
def insertCat (c : Category) : List Category → List Category
  | [] => [c]
  | d :: ds => if keyBefore (catKey c) (catKey d) then c :: d :: ds
               else d :: insertCat c ds

/-- `sorted(self.config.categories, key=helper, reverse=True)`. -/
def sortCats : List Category → List Category
  | [] => []
  | c :: cs => insertCat c (sortCats cs)

/-- Record of one `pop_units` call issued inside a category walk, together
with the loop state at call time: the `ccores` and `ctotal` values entering
the iteration, the workflow's stored weight `left`, the computed `ntasks` and
`taper` arguments and the task infos the store returned. -/
structure PopCall where
  label : String
  complete : Bool
  ccoresAt : Int
  ctotalAt : Int
  left : Int
  ntasks : Nat
  taper : ℚ
  infos : List TaskInfo
deriving Repr, DecidableEq

/-- `ntasks = max(1, int(math.ceil((ccores * left) / (float(ctotal) * cores))))`.
The float division is modelled exactly as a rational (`Rat.divInt`, which is
the rational division of the two integers). -/
def ntasksFor (ccores left ctotal : Int) (cores : Nat) : Nat :=
  (max 1 ⌈Rat.divInt (ccores * left) (ctotal * (cores : Int))⌉).toNat

/-- `taper = min(1., float(left) / (ntasks * cat.cores))` for complete
workflows; incomplete workflows use the `pop_units` default `taper = 1`. -/
def taperFor (complete : Bool) (left : Int) (ntasks : Nat) (cores : Nat) : ℚ :=
  if complete then min 1 (Rat.divInt left ((ntasks * cores : Nat) : Int)) else 1

/-- One workflow loop of `obtain` (lines 319-329 resp. 332-345 of
`source.py`): walks the `(label, left)` pairs of one `wflows[cat][·]`
dictionary, threading `(ccores, hunger, ctotal)` and recording the
`pop_units` calls made.  When `ccores ≤ 0` no call is issued (`infos = []`)
and only `ctotal` changes. -/
def runWfs (st : Store) (cat : Category) (complete : Bool) :
    List (String × Int) → Int → Int → Int → Int × Int × Int × List PopCall
  | [], ccores, hunger, ctotal => (ccores, hunger, ctotal, [])
  | (label, left) :: rest, ccores, hunger, ctotal =>
    if 0 < ccores then
      let ntasks := ntasksFor ccores left ctotal cat.cores
      let taper := taperFor complete left ntasks cat.cores
      let infos := st.popUnits label ntasks taper
      let d : Int := (infos.length : Int) * (cat.cores : Int)
      let r := runWfs st cat complete rest (ccores - d) (hunger - d) (ctotal - left)
      (r.1, r.2.1, r.2.2.1,
        ⟨label, complete, ccores, ctotal, left, ntasks, taper, infos⟩ :: r.2.2.2)
    else
      runWfs st cat complete rest ccores hunger (ctotal - left)

/-- `ccores = int(math.ceil(hunger * sizes[cat.name] / float(count)))`,
clamped by `(cat.tasks - tasks.get(cat.name, 0)) * cat.cores` when the
category has a cap. -/
def ccoresFor (hunger count share : Int) (cat : Category) (queued : Nat) : Int :=
  let c := ⌈Rat.divInt (hunger * share) count⌉
  if cat.tasks == 0 then c
  else min c (((cat.tasks : Int) - (queued : Int)) * (cat.cores : Int))

/-- Record of one processed category: the category, the `hunger` and `count`
values at entry, the clamped `ccores` and the `pop_units` calls made while
walking first the incomplete and then the complete workflows. -/
structure CatStep where
  cat : Category
  hungerAt : Int
  countAt : Int
  ccores : Int
  pops : List PopCall
deriving Repr, DecidableEq

/-- The category loop of `obtain` (lines 301-347): walks the sorted
categories, skipping `'merge'` and categories without included workflows,
threading `hunger` and `count` and recording one `CatStep` per processed
category.  Returns the final hunger and the steps. -/
def runCats (cfg : Config) (st : Store) (queue : List (String × Nat)) :
    List Category → Int → Int → Int × List CatStep
  | [], hunger, _count => (hunger, [])
  | cat :: rest, hunger, count =>
    if catPresent cfg st cat.name && cat.name != "merge" then
      let share := sizes cfg st cat.name
      let cc := ccoresFor hunger count share cat (queueGet queue cat.name)
      let r1 := runWfs st cat false (catPairs cfg st cat.name false) cc hunger share
      let r2 := runWfs st cat true (catPairs cfg st cat.name true) r1.1 r1.2.1 r1.2.2.1
      let r := runCats cfg st queue rest r2.2.1 (count - share)
      (r.1, ⟨cat, hunger, count, cc, r1.2.2.2 ++ r2.2.2.2⟩ :: r.2)
    else
      runCats cfg st queue rest hunger count

/-- The task infos newly popped during the category walk, in the order they
were appended to `taskinfos`. -/
def newInfos (steps : List CatStep) : List TaskInfo :=
  (steps.map (fun s => (s.pops.map PopCall.infos).flatten)).flatten

/-- The observable outcome of one `obtain(total, tasks)` call:
the merge task infos popped up front, the initial hunger, the per-category
trace, the internal `taskinfos` list at descriptor-building time and the
returned descriptors restricted to the scheduling-relevant pair
(category name or `'merge'`, task id). -/
structure ObtainTrace where
  mergeInfos : List TaskInfo
  hunger0 : Int
  steps : List CatStep
  taskinfos : List TaskInfo
  result : List (String × Nat)
deriving Repr, DecidableEq

/-- `TaskProvider.obtain`: pops merge tasks for every workflow, computes the
hunger target, returns `[]` at `hunger == 0` (discarding the merge infos),
otherwise walks the categories and builds one descriptor per task info. -/
def obtain (cfg : Config) (st : Store) (total : Nat)
    (queue : List (String × Nat)) : ObtainTrace :=
  let mergeInfos :=
    (cfg.workflows.map (fun w => st.popUnmerged w.label w.merge_size 10)).flatten
  let h0 := hungerInit cfg total queue
  if h0 = 0 then ⟨mergeInfos, h0, [], [], []⟩
  else
    let r := runCats cfg st queue (sortCats cfg.categories) h0 (countTotal cfg st)
    let tis := mergeInfos ++ newInfos r.2
    if tis.isEmpty then ⟨mergeInfos, h0, r.2, tis, []⟩
    else
      ⟨mergeInfos, h0, r.2, tis,
        tis.map (fun i =>
          ((if i.merge then "merge" else wflowCategoryName cfg i.label), i.id))⟩

/-- All `pop_units` calls issued by one `obtain` invocation, in order. -/
def obtainCalls (cfg : Config) (st : Store) (total : Nat)
    (queue : List (String × Nat)) : List PopCall :=
  ((obtain cfg st total queue).steps.map CatStep.pops).flatten

/-- The `pop_units` calls of one processed category, as issued by the two
workflow loops chained on the shared `(ccores, hunger, ctotal)` state:
first the incomplete workflows, then the complete ones. -/
def catPops (cfg : Config) (st : Store) (cat : Category) (cc hunger : Int) :
    List PopCall :=
  (runWfs st cat false (catPairs cfg st cat.name false) cc hunger
      (sizes cfg st cat.name)).2.2.2 ++
    (runWfs st cat true (catPairs cfg st cat.name true)
      (runWfs st cat false (catPairs cfg st cat.name false) cc hunger
        (sizes cfg st cat.name)).1
      (runWfs st cat false (catPairs cfg st cat.name false) cc hunger
        (sizes cfg st cat.name)).2.1
      (runWfs st cat false (catPairs cfg st cat.name false) cc hunger
        (sizes cfg st cat.name)).2.2.1).2.2.2

/-! ### Dictionaries
Python dictionaries as insertion-ordered association lists: updating an
existing key keeps its position, a new key is appended; `del` removes the
entry. -/

/-- Dictionary lookup. -/
def dGet {α β : Type} [BEq α] : List (α × β) → α → Option β
  | [], _ => none
  | (k', v) :: rest, k => if k' == k then some v else dGet rest k

/-- Dictionary update (`d[k] = v`). -/
def dSet {α β : Type} [BEq α] : List (α × β) → α → β → List (α × β)
  | [], k, v => [(k, v)]
  | (k', v') :: rest, k, v =>
    if k' == k then (k, v) :: rest else (k', v') :: dSet rest k v

/-- Dictionary deletion (`del d[k]`). -/
def dDel {α β : Type} [BEq α] (m : List (α × β)) (k : α) : List (α × β) :=
  m.filter (fun p => !(p.1 == k))

/-- `defaultdict(list)` append: `d[k].append(v)`. -/
def dAppend {α β : Type} [BEq α] (m : List (α × List β)) (k : α) (v : β) :
    List (α × List β) :=
  dSet m k (((dGet m k).getD []) ++ [v])

/-! ### `TaskProvider.release` -/

/-- The per-task state `release` reads from a registered task handler: the
identity fields, the output/input file lists, whether it is a
`MergeTaskHandler`, and the 4-tuple `handler.process(task, summary)`
returned for this completed task (the updates are opaque tokens). -/
structure Handler where
  id : Nat
  dataset : String
  unit_source : String
  outputs : List (String × String)
  output_info : Nat
  input_files : List String
  isMerge : Bool
  procFailed : Bool
  task_update : Nat
  file_update : Nat
  unit_update : Nat
deriving Repr, DecidableEq

/-- The local name of the handler's first output file,
`handler.outputs[0][1]` (defaulting to `""` where the source would raise on
an empty output list). -/
def outfnOf (h : Handler) : String :=
  ((h.outputs.head?).map Prod.snd).getD ""

/-- The mutable state threaded through the `for task in tasks` loop of
`release`: the `cleanup` list, the `update` and `propagate` dictionaries,
the directory moves performed so far (workflow label, task id, destination
bucket) and the remaining task-handler map. -/
structure ReleaseState where
  cleanup : List String
  update : List ((String × String) × List (Nat × Nat × Nat))
  propagate : List (String × List (String × Nat))
  moves : List (String × Nat × String)
  handlers : List (Nat × Handler)
deriving Repr, DecidableEq

/-- The loop body of `release` for one completed task (lines 450-480 of
`source.py`): classify via the handler, move the task directory to `failed/`
or `successful/`, queue output-file cleanup on failure, propagate output info
to dependents on success of a merge task or a `merge_size ≤ 0` workflow,
queue input-file cleanup for merge tasks with `merge_cleanup`, append the
update triple, and delete the handler from the map. -/
def processOne (cfg : Config) (s : ReleaseState) (tag : Nat) (h : Handler) :
    ReleaseState :=
  let wflow := (findWflow cfg h.dataset).getD ⟨h.dataset, "", 0, [], false⟩
  let s1 :=
    if h.procFailed then
      { s with moves := s.moves ++ [(h.dataset, h.id, "failed")],
               cleanup := s.cleanup ++ h.outputs.map Prod.snd }
    else
      let sA := { s with moves := s.moves ++ [(h.dataset, h.id, "successful")] }
      let propagateAll := fun (pr : List (String × List (String × Nat))) =>
        wflow.dependents.foldl
          (fun pr' dep =>
            dSet pr' dep (dSet ((dGet pr' dep).getD []) (outfnOf h) h.output_info))
          pr
      let sB :=
        if wflow.merge_size ≤ 0 || h.isMerge then
          { sA with propagate := propagateAll sA.propagate }
        else sA
      if h.isMerge && wflow.merge_cleanup then
        { sB with cleanup := sB.cleanup ++ h.input_files }
      else sB
  { s1 with
      update := dAppend s1.update (h.dataset, h.unit_source)
                  (h.task_update, h.file_update, h.unit_update),
      handlers := dDel s1.handlers tag }

/-- The `for task in tasks` loop of `release`: looks each tag up in the
handler map (a missing tag raises `KeyError`, aborting the call before any
store update is applied) and folds `processOne`. -/
def releaseLoop (cfg : Config) : ReleaseState → List Nat → Except Nat ReleaseState
  | s, [] => .ok s
  | s, tag :: rest =>
    match dGet s.handlers tag with
    | none => .error tag
    | some h => releaseLoop cfg (processOne cfg s tag h) rest

/-- Outcome of the `fs.remove(*cleanup)` call, which only runs when the
cleanup list is non-empty: it may succeed, or raise `IOError`/`OSError`
(caught and passed over), `ValueError` (caught and logged) or any other
exception (uncaught, propagating out of `release`). -/
inductive RemoveOutcome
  | ok
  | ioError
  | osError
  | valueError
  | otherError
deriving Repr, DecidableEq

/-- Reasons a `release` call can raise. -/
inductive ReleaseError
  | keyError (tag : Nat)
  | uncaughtRemove
deriving Repr, DecidableEq

/-- The externally visible effects of a completed `release` call: the final
loop state, the batch handed to `self.__store.update_units` (only issued
when non-empty) and the `register_files(infos, label)` calls, one per
propagate entry in insertion order. -/
structure ReleaseResult where
  state : ReleaseState
  updateUnitsCall : Option (List ((String × String) × List (Nat × Nat × Nat)))
  registerCalls : List (String × List (String × Nat))
deriving Repr, DecidableEq

/-- The initial loop state of a `release` call over a handler map. -/
def initState (handlers : List (Nat × Handler)) : ReleaseState :=
  ⟨[], [], [], [], handlers⟩

/-- `TaskProvider.release(tasks)`: run the per-task loop, execute the queued
removals (absorbing `IOError`/`OSError`/`ValueError`), apply the accumulated
update batch when non-empty and register propagated files per child
workflow. -/
def release (cfg : Config) (handlers : List (Nat × Handler)) (tasks : List Nat)
    (fsOutcome : RemoveOutcome) : Except ReleaseError ReleaseResult :=
  match releaseLoop cfg (initState handlers) tasks with
  | .error tag => .error (.keyError tag)
  | .ok s =>
    if 0 < s.cleanup.length && fsOutcome == .otherError then
      .error .uncaughtRemove
    else
      .ok ⟨s, (if 0 < s.update.length then some s.update else none), s.propagate⟩

/-- The handler map remaining after a successful `release` loop (the map is
unchanged observable-state-wise when the loop raises, since the caller
process aborts; `[]` stands in for that unreachable branch in the
observations below, which always hypothesise a successful loop). -/
def handlersAfter (cfg : Config) (handlers : List (Nat × Handler))
    (tasks : List Nat) : List (Nat × Handler) :=
  match releaseLoop cfg (initState handlers) tasks with
  | .ok s => s.handlers
  | .error _ => []

/-! ### Claim-side definitions
Definitions following the spec's words, to be compared with the embedding. -/

/-- Modelled from the spec (claim C3 as stated):
`H = max(0, total + max(⌈0.1·total⌉, payload_floor) − Σ_c cores(c)·in_queue[c])`
with a rounded-up ten percent margin. -/
def hungerSpecCeil (cfg : Config) (total : Nat)
    (queue : List (String × Nat)) : Int :=
  max ((total : Int) + max ⌈Rat.divInt (total : Int) 10⌉ (cfg.payload : Int)
    - (queue.map (fun nq => (catCores cfg nq.1 : Int) * (nq.2 : Int))).sum) 0

/-- Modelled from the amended claim C3: the ten percent margin is rounded
down (`int(0.1*total)` truncates), everything else as the claim states. -/
def hungerSpecFloor (cfg : Config) (total : Nat)
    (queue : List (String × Nat)) : Int :=
  max ((total : Int) + max ⌊Rat.divInt (total : Int) 10⌋ (cfg.payload : Int)
    - (queue.map (fun nq => (catCores cfg nq.1 : Int) * (nq.2 : Int))).sum) 0

/-- Modelled from the spec (claim C5 as stated): the per-workflow task count
`ntasks = max(1, ⌈ccores · units_left / (category_total_units · cores)⌉)`,
computed from the store's `units_left` numbers. -/
def ntasksClaim (ccores units_left cat_total_units : Int) (cores : Nat) : Int :=
  max 1 ⌈Rat.divInt (ccores * units_left) (cat_total_units * (cores : Int))⌉

/-! ### Concrete scenario fixtures -/

/-- A store with no poppable work anywhere and one ready merge task per
workflow (`pop_unmerged_tasks` returns a single descriptor). -/
def stMergeOnly : Store :=
  ⟨fun l _ _ => [⟨7, l, true⟩], fun _ => (true, 0, 0), fun _ _ _ => []⟩

/-- A store with nothing at all to hand out. -/
def stEmpty : Store :=
  ⟨fun _ _ _ => [], fun _ => (true, 0, 0), fun _ _ _ => []⟩

/-- One workflow `w` in category `a` (1 core, no cap), payload floor 0. -/
def cfgOneWflow : Config := ⟨[⟨"w", "a", 200, [], false⟩], [⟨"a", 1, 0⟩], 0⟩

/-- A store whose only workflow is complete with five units left but an
estimated half task of work (`work_left = (True, 5, 0.5)`). -/
def stHalfTask : Store :=
  ⟨fun _ _ _ => [], fun _ => (true, 5, mkRat 1 2), fun _ _ _ => []⟩

/-- The workflow of the `stHalfTask` scenario. -/
def wHalf : Workflow := ⟨"w", "a", 100, [], false⟩

/-- Configuration holding just `wHalf`. -/
def cfgHalf : Config := ⟨[wHalf], [⟨"a", 1, 0⟩], 0⟩

/-- Two complete workflows in category `a` (1 core, no cap) with very
different units-per-task densities: `w1` has 100 units in roughly one task,
`w2` has 10 units in roughly ten tasks.  Payload floor 1. -/
def cfgTwoWflows : Config :=
  ⟨[⟨"w1", "a", 100, [], false⟩, ⟨"w2", "a", 100, [], false⟩], [⟨"a", 1, 0⟩], 1⟩

/-- Store for the `cfgTwoWflows` scenario:
`work_left("w1") = (True, 100, 1.0)`, `work_left("w2") = (True, 10, 10.0)`,
and `pop_units` finds nothing. -/
def stTwoWflows : Store :=
  ⟨fun _ _ _ => [],
   fun l => if l == "w1" then (true, 100, 1) else (true, 10, 10),
   fun _ _ _ => []⟩

/-- Store like `stTwoWflows` whose `pop_units` returns one (non-merge) task
whenever at least one is requested. -/
def stPopOne : Store :=
  ⟨fun _ _ _ => [],
   fun l => if l == "w1" then (true, 100, 1) else (true, 10, 10),
   fun l n _ => if n == 0 then [] else [⟨0, l, false⟩]⟩

/-- Like `cfgTwoWflows` but with a cap of 3 simultaneous tasks on the
category. -/
def cfgCapped : Config :=
  ⟨[⟨"w1", "a", 100, [], false⟩, ⟨"w2", "a", 100, [], false⟩], [⟨"a", 1, 3⟩], 1⟩

/-- The first `pop_units` call of the `cfgTwoWflows`/`stPopOne` run of
`obtain(10, {})`. -/
def pW1 : PopCall := ⟨"w1", true, 11, 11, 1, 1, 1, [⟨0, "w1", false⟩]⟩

/-- The second `pop_units` call of the `cfgTwoWflows`/`stPopOne` run. -/
def pW2 : PopCall := ⟨"w2", true, 10, 10, 10, 10, 1, [⟨0, "w2", false⟩]⟩

/-- The single category step of the `cfgTwoWflows`/`stPopOne` run. -/
def sW : CatStep := ⟨⟨"a", 1, 0⟩, 11, 11, 11, [pW1, pW2]⟩

/-- The single category step of the capped `cfgCapped`/`stPopOne` run of
`obtain(10, {a: 1})`: the fair share of 10 cores is clamped to
`(3 − 1)·1 = 2` and exactly two tasks get popped. -/
def sCap : CatStep :=
  ⟨⟨"a", 1, 3⟩, 10, 11, 2,
    [⟨"w1", true, 2, 11, 1, 1, 1, [⟨0, "w1", false⟩]⟩,
     ⟨"w2", true, 1, 10, 10, 1, 1, [⟨0, "w2", false⟩]⟩]⟩

/-- Workflow fixture for the release scenarios: merge target disabled
(`merge_size = 0`) and two dependent workflows. -/
def wRel : Workflow := ⟨"wd", "a", 0, ["child1", "child2"], false⟩

/-- Configuration for the release scenarios. -/
def cfgRel : Config := ⟨[wRel], [⟨"a", 1, 0⟩], 0⟩

/-- A successful non-merge task handler of workflow `wd`. -/
def hOk : Handler := ⟨3, "wd", "units", [("r1", "l1")], 42, ["i1"], false, false, 7, 8, 9⟩

/-- A failed task handler of workflow `wd`. -/
def hFail : Handler := ⟨4, "wd", "units", [("r2", "l2")], 43, [], false, true, 1, 2, 3⟩

/-! ### Observations on traces -/

/-- Total cores consumed by the tasks returned across a list of `pop_units`
calls of one category (each task costs `cat.cores`). -/
def callsCores (cores : Nat) (calls : List PopCall) : Int :=
  (calls.map (fun p => (p.infos.length : Int) * (cores : Int))).sum

/-- Total number of tasks returned across a list of `pop_units` calls. -/
def callsCount (calls : List PopCall) : Int :=
  (calls.map (fun p => (p.infos.length : Int))).sum

/-- Total cores consumed by all newly created (non-merge) tasks of a trace. -/
def stepsCores (steps : List CatStep) : Int :=
  (steps.map (fun s => callsCores s.cat.cores s.pops)).sum

/-- One core-count per processed category: the rounding slack the hunger
bound allows (at most one task per category). -/
def stepsSlack (steps : List CatStep) : Int :=
  (steps.map (fun s => ((s.cat.cores : Nat) : Int))).sum

/-- The processable categories of a walk list: those with an included
workflow, excluding the reserved `'merge'` name. -/
def processable (cfg : Config) (st : Store) (c : Category) : Bool :=
  catPresent cfg st c.name && c.name != "merge"

/-- Summed category shares of the processable categories of a walk list. -/
def sizesSumP (cfg : Config) (st : Store) (cats : List Category) : Int :=
  ((cats.filter (processable cfg st)).map (fun c => sizes cfg st c.name)).sum

/-! ### Claims -/

/-- Claim C1 (code bug): with `total = 0`, an empty queue, payload floor 0
and one ready merge task, the computed hunger is zero and `obtain` returns
the empty list even though `pop_unmerged_tasks` already popped a merge task:
the `if hunger == 0: return []` branch discards the merge descriptors, in
contradiction with the claim, the spec and the method's own docstring
("Merge tasks are always created, given enough successful tasks"). -/
theorem C1_hunger_zero_drops_merge_tasks :
    (obtain cfgOneWflow stMergeOnly 0 []).hunger0 = 0 ∧
    (obtain cfgOneWflow stMergeOnly 0 []).mergeInfos = [⟨7, "w", true⟩] ∧
    (obtain cfgOneWflow stMergeOnly 0 []).result = [] := by
  refine ⟨rfl, rfl, rfl⟩

/-- Claim C3, counterexample: at `total = 15` with payload floor 0 and an
empty queue the code computes hunger `15 + int(0.1*15) = 16`, while the
claimed formula with a rounded-up margin gives `15 + ⌈1.5⌉ = 17`. -/
theorem C3_counterexample :
    (obtain cfgOneWflow stEmpty 15 []).hunger0 ≠
      hungerSpecCeil cfgOneWflow 15 [] := by
  decide

/-- Claim C4, counterexample: the workflow `wHalf` is complete
(`complete = True`) with `tasks_left = 0.5 < 1`, so the claim as stated says
it is skipped; the code keeps it (the skip branch fires only for incomplete
workflows), so it survives into the category shares. -/
theorem C4_counterexample :
    (stHalfTask.workLeft "w").1 = true ∧
    (stHalfTask.workLeft "w").2.2 < 1 ∧
    included cfgHalf stHalfTask = [wHalf] := by
  refine ⟨rfl, by decide, rfl⟩

/-- Claim C4, amended: a workflow survives into the category shares of an
`obtain` cycle iff it is not the case that it is *incomplete* with
`tasks_left < 1` (the opposite of the claimed direction: an incomplete
workflow below one task of work waits for more upstream units, a complete
one proceeds), and its `units_left` is non-zero. -/
theorem C4_amended_skip_rule (cfg : Config) (st : Store) (w : Workflow)
    (hw : w ∈ cfg.workflows) :
    w ∈ included cfg st ↔
      ¬((st.workLeft w.label).1 = false ∧ (st.workLeft w.label).2.2 < 1) ∧
        (st.workLeft w.label).2.1 ≠ 0 := by
  unfold included skipWflow
  rw [List.mem_filter]
  simp only [hw, true_and, Bool.not_eq_true', Bool.or_eq_false_iff,
    Bool.and_eq_false_iff, Bool.not_eq_false', beq_eq_false_iff_ne,
    decide_eq_false_iff_not, not_lt, beq_iff_eq]
  constructor
  · rintro ⟨h1, h2⟩
    refine ⟨?_, h2⟩
    rintro ⟨hc, hlt⟩
    rcases h1 with h | h
    · exact absurd hc (by simp [h])
    · exact absurd hlt (not_lt.mpr h)
  · rintro ⟨h1, h2⟩
    refine ⟨?_, h2⟩
    by_cases hc : (st.workLeft w.label).1 = false
    · right
      by_contra hlt
      exact h1 ⟨hc, not_le.mp (fun hle => hlt (not_lt.mp (by simpa using hle)))⟩
    · left
      simpa using hc

/-- Witness for the amended claim C4 at the `stHalfTask` scenario: the
complete workflow with half a task of residual work is retained. -/
theorem C4_amended_skip_rule_witness :
    wHalf ∈ included cfgHalf stHalfTask := by
  exact (C4_amended_skip_rule cfgHalf stHalfTask wHalf (by decide)).mpr
    (by refine ⟨?_, by decide⟩; rintro ⟨hc, _⟩; exact absurd hc (by decide))

/-- The hunger recorded in the trace is the initial hunger target, whichever
branch `obtain` takes. -/
theorem obtain_hunger0 (cfg : Config) (st : Store) (total : Nat)
    (queue : List (String × Nat)) :
    (obtain cfg st total queue).hunger0 = hungerInit cfg total queue := by
  simp only [obtain]
  split
  · rfl
  · split <;> rfl

/-- Claim C3, amended: for every total and queue snapshot, `obtain` computes
its hunger target as
`H = max(0, total + max(⌊0.1·total⌋, payload) − Σ_c cores(c)·in_queue[c])` —
the ten percent margin is rounded down (`int(0.1*total)` truncates), not up
as the claim states. -/
theorem C3_amended_hunger_formula (cfg : Config) (st : Store) (total : Nat)
    (queue : List (String × Nat)) :
    (obtain cfg st total queue).hunger0 = hungerSpecFloor cfg total queue := by
  rw [obtain_hunger0]
  unfold hungerInit needCores hungerSpecFloor
  congr 2
  rw [Rat.divInt_eq_div]
  have h10 : ((10 : ℤ) : ℚ) = ((10 : ℕ) : ℚ) := by norm_num
  rw [h10, Rat.floor_intCast_div_natCast]
  omega

/-- The category order relation is total. -/
theorem keyBefore_total (a b : Option Int) :
    keyBefore a b = true ∨ keyBefore b a = true := by
  cases a <;> cases b <;> simp [keyBefore] <;> omega

/-- The category order relation is transitive. -/
theorem keyBefore_trans {a b c : Option Int} (hab : keyBefore a b = true)
    (hbc : keyBefore b c = true) : keyBefore a c = true := by
  cases a <;> cases b <;> cases c <;> simp_all [keyBefore] <;> omega

/-- Stable insertion permutes. -/
theorem insertCat_perm (c : Category) (l : List Category) :
    (insertCat c l).Perm (c :: l) := by
  induction l with
  | nil => simp [insertCat]
  | cons d ds ih =>
    simp only [insertCat]
    split
    · exact List.Perm.refl _
    · exact ((ih.cons d).trans (List.Perm.swap c d ds))

/-- The sorted category list is a permutation of the input. -/
theorem sortCats_perm (l : List Category) : (sortCats l).Perm l := by
  induction l with
  | nil => simp [sortCats]
  | cons c cs ih => exact (insertCat_perm c (sortCats cs)).trans (ih.cons c)

/-- Stable insertion keeps the list ordered. -/
theorem insertCat_pairwise (c : Category) (l : List Category)
    (hl : l.Pairwise (fun a b => keyBefore (catKey a) (catKey b) = true)) :
    (insertCat c l).Pairwise (fun a b => keyBefore (catKey a) (catKey b) = true) := by
  induction l with
  | nil => simp [insertCat]
  | cons d ds ih =>
    rcases List.pairwise_cons.mp hl with ⟨hd, hds⟩
    simp only [insertCat]
    split
    case isTrue hcd =>
      refine List.pairwise_cons.mpr ⟨?_, hl⟩
      intro x hx
      rcases List.mem_cons.mp hx with rfl | hx
      · exact hcd
      · exact keyBefore_trans hcd (hd x hx)
    case isFalse hcd =>
      refine List.pairwise_cons.mpr ⟨?_, ih hds⟩
      intro x hx
      rcases List.mem_cons.mp ((insertCat_perm c ds).mem_iff.mp hx) with rfl | hx'
      · rcases keyBefore_total (catKey x) (catKey d) with h | h
        · exact absurd h hcd
        · exact h
      · exact hd x hx'

/-- `sortCats` orders categories by `keyBefore`: capped categories in
ascending `tasks*cores`, then uncapped ones. -/
theorem sortCats_pairwise (l : List Category) :
    (sortCats l).Pairwise (fun a b => keyBefore (catKey a) (catKey b) = true) := by
  induction l with
  | nil => simp [sortCats]
  | cons c cs ih => exact insertCat_pairwise c (sortCats cs) ih

/-- State evolution of the workflow loop: `ctotal` decreases by every
weight walked. -/
theorem runWfs_ctotal (st : Store) (cat : Category) (cpl : Bool)
    (pairs : List (String × Int)) :
    ∀ c h t, (runWfs st cat cpl pairs c h t).2.2.1 = t - (pairs.map Prod.snd).sum := by
  induction pairs with
  | nil => intro c h t; simp [runWfs]
  | cons p rest ih =>
    intro c h t
    obtain ⟨label, left⟩ := p
    simp only [runWfs]
    split
    · simp [ih]; ring
    · simp [ih]; ring

/-- State evolution of the workflow loop: `ccores` decreases by exactly the
cores of the popped tasks. -/
theorem runWfs_ccores (st : Store) (cat : Category) (cpl : Bool)
    (pairs : List (String × Int)) :
    ∀ c h t, (runWfs st cat cpl pairs c h t).1 =
      c - callsCores cat.cores (runWfs st cat cpl pairs c h t).2.2.2 := by
  induction pairs with
  | nil => intro c h t; simp [runWfs, callsCores]
  | cons p rest ih =>
    intro c h t
    obtain ⟨label, left⟩ := p
    simp only [runWfs]
    split
    · simp [ih, callsCores]; ring
    · simp [ih]

/-- State evolution of the workflow loop: `hunger` decreases by exactly the
cores of the popped tasks. -/
theorem runWfs_hunger (st : Store) (cat : Category) (cpl : Bool)
    (pairs : List (String × Int)) :
    ∀ c h t, (runWfs st cat cpl pairs c h t).2.1 =
      h - callsCores cat.cores (runWfs st cat cpl pairs c h t).2.2.2 := by
  induction pairs with
  | nil => intro c h t; simp [runWfs, callsCores]
  | cons p rest ih =>
    intro c h t
    obtain ⟨label, left⟩ := p
    simp only [runWfs]
    split
    · simp [ih, callsCores]; ring
    · simp [ih]

/-- With `ccores ≤ 0` the workflow loop issues no `pop_units` call. -/
theorem runWfs_calls_nil (st : Store) (cat : Category) (cpl : Bool)
    (pairs : List (String × Int)) :
    ∀ c h t, c ≤ 0 → (runWfs st cat cpl pairs c h t).2.2.2 = [] := by
  induction pairs with
  | nil => intro c h t _; simp [runWfs]
  | cons p rest ih =>
    intro c h t hc
    obtain ⟨label, left⟩ := p
    simp only [runWfs]
    split
    case isTrue h' => omega
    case isFalse h' => exact ih c h (t - left) hc

/-- Every recorded call of the workflow loop carries the loop's own
parameters: the flag, a positive `ccores` at call time, the `ntasks` and
`taper` formulas evaluated at the recorded state, a pair from the walked
dictionary and the store's reply. -/
theorem runWfs_calls_mem (st : Store) (cat : Category) (cpl : Bool)
    (pairs : List (String × Int)) :
    ∀ c h t p, p ∈ (runWfs st cat cpl pairs c h t).2.2.2 →
      p.complete = cpl ∧ 0 < p.ccoresAt ∧
      p.ntasks = ntasksFor p.ccoresAt p.left p.ctotalAt cat.cores ∧
      p.taper = taperFor cpl p.left p.ntasks cat.cores ∧
      (p.label, p.left) ∈ pairs ∧
      p.infos = st.popUnits p.label p.ntasks p.taper := by
  induction pairs with
  | nil => intro c h t p hp; simp [runWfs] at hp
  | cons q rest ih =>
    intro c h t p hp
    obtain ⟨label, left⟩ := q
    simp only [runWfs] at hp
    split at hp
    case isTrue h' =>
      rcases List.mem_cons.mp hp with hp | hp
      · subst hp
        refine ⟨rfl, h', rfl, rfl, List.mem_cons_self _ _, rfl⟩
      · have := ih _ _ _ p hp
        exact ⟨this.1, this.2.1, this.2.2.1, this.2.2.2.1,
          List.mem_cons_of_mem _ this.2.2.2.2.1, this.2.2.2.2.2⟩
    case isFalse h' =>
      have := ih _ _ _ p hp
      exact ⟨this.1, this.2.1, this.2.2.1, this.2.2.2.1,
        List.mem_cons_of_mem _ this.2.2.2.2.1, this.2.2.2.2.2⟩

/-- Rounding bound for the per-workflow task count: as long as the walked
weight does not exceed the remaining category total, the cores requested by
`ntasks` overshoot the remaining `ccores` by less than one task. -/
theorem ntasksFor_mul_le (c left t : Int) (cores : Nat) (hcores : 1 ≤ cores)
    (hc : 0 < c) (hl : 0 ≤ left) (hlt : left ≤ t) :
    (ntasksFor c left t cores : Int) * (cores : Int) ≤ c + ((cores : Int) - 1) := by
  have hb : (1 : Int) ≤ (cores : Int) := by exact_mod_cast hcores
  have hb0 : (0 : Int) < (cores : Int) := by omega
  have hbq : (0 : ℚ) < ((cores : Int) : ℚ) := by exact_mod_cast hb0
  have hcq : (0 : ℚ) < ((c : Int) : ℚ) := by exact_mod_cast hc
  set m : Int := ⌈((c : Int) : ℚ) / ((cores : Int) : ℚ)⌉ with hm
  have hm1 : 1 ≤ m := Int.ceil_pos.mpr (div_pos hcq hbq)
  have hstepA : ⌈Rat.divInt (c * left) (t * (cores : Int))⌉ ≤ m := by
    rw [Rat.divInt_eq_div]
    rcases le_or_lt t 0 with ht | ht
    · have hleft0 : left = 0 := le_antisymm (hlt.trans ht) hl
      subst hleft0
      simp only [mul_zero, Int.cast_zero, zero_div, Int.ceil_zero]
      omega
    · have htb : (0 : ℚ) < ((t * (cores : Int) : Int) : ℚ) := by
        exact_mod_cast mul_pos ht hb0
      apply Int.ceil_le_ceil
      rw [div_le_div_iff₀ htb hbq]
      have hltq : ((left : Int) : ℚ) ≤ ((t : Int) : ℚ) := by exact_mod_cast hlt
      push_cast
      nlinarith [mul_nonneg (mul_nonneg hcq.le hbq.le) (sub_nonneg.mpr hltq)]
  have hmax : max 1 ⌈Rat.divInt (c * left) (t * (cores : Int))⌉ ≤ m :=
    max_le hm1 hstepA
  have hmaxpos : (0 : Int) ≤ max 1 ⌈Rat.divInt (c * left) (t * (cores : Int))⌉ :=
    le_trans zero_le_one (le_max_left _ _)
  have hcast : ((ntasksFor c left t cores : Nat) : Int) =
      max 1 ⌈Rat.divInt (c * left) (t * (cores : Int))⌉ := by
    unfold ntasksFor
    exact Int.toNat_of_nonneg hmaxpos
  have hmb : m * (cores : Int) ≤ c + ((cores : Int) - 1) := by
    have hlt1 : ((m : Int) : ℚ) < ((c : Int) : ℚ) / ((cores : Int) : ℚ) + 1 :=
      Int.ceil_lt_add_one _
    have h2 : ((m : Int) : ℚ) * ((cores : Int) : ℚ) <
        (((c : Int) : ℚ) / ((cores : Int) : ℚ) + 1) * ((cores : Int) : ℚ) :=
      mul_lt_mul_of_pos_right hlt1 hbq
    have h3 : (((c : Int) : ℚ) / ((cores : Int) : ℚ) + 1) * ((cores : Int) : ℚ) =
        ((c : Int) : ℚ) + ((cores : Int) : ℚ) := by
      field_simp
    rw [h3] at h2
    have h4 : m * (cores : Int) < c + (cores : Int) := by exact_mod_cast h2
    omega
  calc (ntasksFor c left t cores : Int) * (cores : Int)
      = (max 1 ⌈Rat.divInt (c * left) (t * (cores : Int))⌉) * (cores : Int) := by
        rw [hcast]
    _ ≤ m * (cores : Int) := mul_le_mul_of_nonneg_right hmax (by omega)
    _ ≤ c + ((cores : Int) - 1) := hmb

/-- Cores consumed by calls are non-negative. -/
theorem callsCores_nonneg (cores : Nat) (calls : List PopCall) :
    0 ≤ callsCores cores calls := by
  apply List.sum_nonneg
  intro x hx
  rcases List.mem_map.mp hx with ⟨p, _, rfl⟩
  positivity

/-- `callsCores` distributes over append. -/
theorem callsCores_append (cores : Nat) (a b : List PopCall) :
    callsCores cores (a ++ b) = callsCores cores a + callsCores cores b := by
  simp [callsCores]

/-- With zero cores per task every call consumes zero cores. -/
theorem callsCores_zero (calls : List PopCall) : callsCores 0 calls = 0 := by
  simp [callsCores]

/-- Cores and task counts of calls are related by the per-task core count. -/
theorem callsCores_eq_count (cores : Nat) (calls : List PopCall) :
    callsCores cores calls = callsCount calls * (cores : Int) := by
  induction calls with
  | nil => simp [callsCores, callsCount]
  | cons p rest ih =>
    simp only [callsCores, callsCount, List.map_cons, List.sum_cons] at *
    rw [ih]
    ring

/-- Per-loop hunger bound: when the store never returns more tasks than
requested and the walked weights are non-negative with total at most
`ctotal`, the cores consumed by one workflow loop exceed the entering
`ccores` by less than one task. -/
theorem runWfs_cores_bound (st : Store) (cat : Category) (cpl : Bool)
    (hPop : ∀ l n tp, (st.popUnits l n tp).length ≤ n)
    (pairs : List (String × Int)) :
    ∀ c h t, (∀ pr ∈ pairs, 0 ≤ pr.2) → (pairs.map Prod.snd).sum ≤ t →
      callsCores cat.cores (runWfs st cat cpl pairs c h t).2.2.2 ≤
        max c 0 + max ((cat.cores : Int) - 1) 0 := by
  induction pairs with
  | nil =>
    intro c h t _ _
    simp only [runWfs, callsCores, List.map_nil, List.sum_nil]
    exact add_nonneg (le_max_right c 0) (le_max_right _ 0)
  | cons q rest ih =>
    intro c h t hnn hsum
    obtain ⟨label, left⟩ := q
    have hleft : 0 ≤ left := hnn (label, left) (List.mem_cons_self _ _)
    have hrestnn : ∀ pr ∈ rest, 0 ≤ pr.2 :=
      fun pr hpr => hnn pr (List.mem_cons_of_mem _ hpr)
    have hrestsum : 0 ≤ (rest.map Prod.snd).sum := by
      apply List.sum_nonneg
      intro x hx
      rcases List.mem_map.mp hx with ⟨pr, hpr, rfl⟩
      exact hrestnn pr hpr
    have hsums : left + (rest.map Prod.snd).sum ≤ t := by
      simpa using hsum
    simp only [runWfs]
    split
    case isTrue hpos =>
      rcases Nat.eq_zero_or_pos cat.cores with hz | hcpos
      · rw [hz]
        rw [callsCores_zero]
        exact add_nonneg (le_max_right c 0) (le_max_right _ 0)
      · have hb : (1 : Int) ≤ (cat.cores : Int) := by exact_mod_cast hcpos
        set ntasks := ntasksFor c left t cat.cores with hnt
        set taper := taperFor cpl left ntasks cat.cores with htp
        set infos := st.popUnits label ntasks taper with hinf
        set d : Int := (infos.length : Int) * (cat.cores : Int) with hd
        have hd0 : 0 ≤ d := by positivity
        have hdle : d ≤ c + ((cat.cores : Int) - 1) := by
          have h1 : (infos.length : Int) ≤ (ntasks : Int) := by
            exact_mod_cast hPop label ntasks taper
          have h2 : d ≤ (ntasks : Int) * (cat.cores : Int) :=
            mul_le_mul_of_nonneg_right h1 (by positivity)
          exact h2.trans
            (ntasksFor_mul_le c left t cat.cores hcpos hpos hleft (by omega))
        have hM : max ((cat.cores : Int) - 1) 0 = (cat.cores : Int) - 1 := by
          omega
        simp only [callsCores, List.map_cons, List.sum_cons]
        have hrec := ih (c - d) (h - d) (t - left) hrestnn (by omega)
        rcases le_or_lt (c - d) 0 with hcd | hcd
        · rw [runWfs_calls_nil st cat cpl rest _ _ _ hcd]
          simp only [callsCores, List.map_nil, List.sum_nil, add_zero]
          omega
        · have : callsCores cat.cores
              (runWfs st cat cpl rest (c - d) (h - d) (t - left)).2.2.2 ≤
              (c - d) + ((cat.cores : Int) - 1) := by
            rw [hM] at hrec
            omega
          simp only [callsCores] at this
          omega
    case isFalse hpos =>
      exact ih c h (t - left) hrestnn (by omega)

/-- Splitting a filtered sum along a disjoint case split of the predicate. -/
theorem sum_filter_or {α : Type} (l : List α) (p q r : α → Bool) (f : α → Int)
    (hpq : ∀ a, p a = (q a || r a)) (hdisj : ∀ a, ¬(q a = true ∧ r a = true)) :
    ((l.filter p).map f).sum =
      ((l.filter q).map f).sum + ((l.filter r).map f).sum := by
  induction l with
  | nil => simp
  | cons a tl ih =>
    simp only [List.filter_cons]
    rcases hq : q a with _ | _ <;> rcases hr : r a with _ | _
    · have hp : p a = false := by rw [hpq a, hq, hr]; rfl
      simpa [hp, hq, hr] using ih
    · have hp : p a = true := by rw [hpq a, hq, hr]; rfl
      simp [hp, hq, hr]
      omega
    · have hp : p a = true := by rw [hpq a, hq, hr]; rfl
      simp [hp, hq, hr]
      omega
    · exact absurd ⟨hq, hr⟩ (hdisj a)

/-- A filtered sum of non-negative values is at most the full sum. -/
theorem sum_filter_le_sum {α : Type} (l : List α) (p : α → Bool) (f : α → Int)
    (hf : ∀ a ∈ l, 0 ≤ f a) :
    ((l.filter p).map f).sum ≤ (l.map f).sum := by
  induction l with
  | nil => simp
  | cons a tl ih =>
    have ha := hf a (List.mem_cons_self _ _)
    have htl : ∀ x ∈ tl, 0 ≤ f x := fun x hx => hf x (List.mem_cons_of_mem _ hx)
    simp only [List.filter_cons, List.map_cons, List.sum_cons]
    rcases hp : p a with _ | _
    · simpa using (ih htl).trans (by omega)
    · simp only [if_true, List.map_cons, List.sum_cons]
      exact add_le_add_left (ih htl) _

/-- Workflow weights are non-negative when the store's `tasks_left`
estimates are. -/
theorem wweight_nonneg (cfg : Config) (st : Store)
    (hTL : ∀ l, 0 ≤ (st.workLeft l).2.2) (w : Workflow) :
    0 ≤ wweight cfg st w := by
  unfold wweight
  have : (0 : Int) ≤ ⌈(st.workLeft w.label).2.2⌉ := Int.ceil_nonneg (hTL w.label)
  positivity

/-- Category shares are non-negative when the store's `tasks_left`
estimates are. -/
theorem sizes_nonneg (cfg : Config) (st : Store)
    (hTL : ∀ l, 0 ≤ (st.workLeft l).2.2) (name : String) :
    0 ≤ sizes cfg st name := by
  apply List.sum_nonneg
  intro x hx
  rcases List.mem_map.mp hx with ⟨w, _, rfl⟩
  exact wweight_nonneg cfg st hTL w

/-- A category's share is exactly the summed weights of its incomplete and
complete pair lists. -/
theorem sizes_eq_pairs (cfg : Config) (st : Store) (name : String) :
    sizes cfg st name =
      ((catPairs cfg st name false).map Prod.snd).sum +
        ((catPairs cfg st name true).map Prod.snd).sum := by
  unfold sizes catPairs
  rw [List.map_map, List.map_map]
  have hcomp : ∀ b : Bool,
      (Prod.snd ∘ fun w : Workflow => (w.label, wweight cfg st w)) = wweight cfg st := by
    intro b
    funext w
    rfl
  rw [hcomp true]
  apply sum_filter_or
  · intro w
    cases hw : w.category == name <;> cases hc : (st.workLeft w.label).1 <;>
      simp [hw, hc]
  · intro w
    rintro ⟨h1, h2⟩
    simp only [Bool.and_eq_true, beq_iff_eq] at h1 h2
    rw [h1.2] at h2
    exact Bool.false_ne_true h2.2

/-- Pair weights walked by the loops are non-negative. -/
theorem catPairs_nonneg (cfg : Config) (st : Store)
    (hTL : ∀ l, 0 ≤ (st.workLeft l).2.2) (name : String) (b : Bool) :
    ∀ pr ∈ catPairs cfg st name b, 0 ≤ pr.2 := by
  intro pr hpr
  rcases List.mem_map.mp hpr with ⟨w, _, rfl⟩
  exact wweight_nonneg cfg st hTL w

/-- Category-level hunger bound: chaining the incomplete and the complete
workflow loop of one category overshoots the category's `ccores` by less
than one task in total. -/
theorem catLoop_cores_bound (st : Store) (cat : Category)
    (hPop : ∀ l n tp, (st.popUnits l n tp).length ≤ n)
    (pf pt : List (String × Int)) (cc h share : Int)
    (hpf : ∀ pr ∈ pf, 0 ≤ pr.2) (hpt : ∀ pr ∈ pt, 0 ≤ pr.2)
    (hsum : (pf.map Prod.snd).sum + (pt.map Prod.snd).sum ≤ share) :
    callsCores cat.cores
        ((runWfs st cat false pf cc h share).2.2.2 ++
          (runWfs st cat true pt (runWfs st cat false pf cc h share).1
            (runWfs st cat false pf cc h share).2.1
            (runWfs st cat false pf cc h share).2.2.1).2.2.2) ≤
      max cc 0 + max ((cat.cores : Int) - 1) 0 := by
  set r1 := runWfs st cat false pf cc h share with hr1
  have hptsum : 0 ≤ (pt.map Prod.snd).sum := by
    apply List.sum_nonneg
    intro x hx
    rcases List.mem_map.mp hx with ⟨pr, hpr, rfl⟩
    exact hpt pr hpr
  have hpfsum : 0 ≤ (pf.map Prod.snd).sum := by
    apply List.sum_nonneg
    intro x hx
    rcases List.mem_map.mp hx with ⟨pr, hpr, rfl⟩
    exact hpf pr hpr
  have hbound1 : callsCores cat.cores r1.2.2.2 ≤
      max cc 0 + max ((cat.cores : Int) - 1) 0 :=
    runWfs_cores_bound st cat false hPop pf cc h share hpf (by omega)
  have hcc1 : r1.1 = cc - callsCores cat.cores r1.2.2.2 :=
    runWfs_ccores st cat false pf cc h share
  have hct1 : r1.2.2.1 = share - (pf.map Prod.snd).sum :=
    runWfs_ctotal st cat false pf cc h share
  rw [callsCores_append]
  rcases le_or_lt r1.1 0 with hneg | hpos
  · rw [runWfs_calls_nil st cat true pt _ _ _ hneg]
    simp only [callsCores, List.map_nil, List.sum_nil, add_zero]
    simpa [callsCores] using hbound1
  · have hbound2 : callsCores cat.cores
        (runWfs st cat true pt r1.1 r1.2.1 r1.2.2.1).2.2.2 ≤
        max r1.1 0 + max ((cat.cores : Int) - 1) 0 :=
      runWfs_cores_bound st cat true hPop pt r1.1 r1.2.1 r1.2.2.1 hpt
        (by rw [hct1]; omega)
    have h1nn : 0 ≤ callsCores cat.cores r1.2.2.2 := callsCores_nonneg _ _
    omega

/-- The fair-share rounding never hands a category more than the remaining
(clamped) hunger: `⌈hunger·share/count⌉ ≤ max hunger 0` when
`0 ≤ share ≤ count`. -/
theorem ceil_divInt_le (hunger count share : Int) (hs : 0 ≤ share)
    (hsc : share ≤ count) :
    ⌈Rat.divInt (hunger * share) count⌉ ≤ max hunger 0 := by
  rcases eq_or_lt_of_le (hs.trans hsc) with hc0 | hcpos
  · have hshare0 : share = 0 := le_antisymm (hsc.trans hc0.ge) hs
    rw [hshare0, mul_zero, Rat.zero_divInt, Int.ceil_zero]
    omega
  · rw [Rat.divInt_eq_div]
    have hcq : (0 : ℚ) < ((count : Int) : ℚ) := by exact_mod_cast hcpos
    rcases le_or_lt 0 hunger with hh | hh
    · have : ⌈((hunger * share : Int) : ℚ) / ((count : Int) : ℚ)⌉ ≤ hunger := by
        apply Int.ceil_le.mpr
        rw [div_le_iff₀ hcq]
        have : hunger * share ≤ hunger * count :=
          mul_le_mul_of_nonneg_left hsc hh
        exact_mod_cast this
      omega
    · have : ⌈((hunger * share : Int) : ℚ) / ((count : Int) : ℚ)⌉ ≤ 0 := by
        apply Int.ceil_le.mpr
        push_cast
        apply div_nonpos_iff.mpr
        right
        constructor
        · have : hunger * share ≤ 0 := mul_nonpos_iff.mpr (Or.inr ⟨hh.le, hs⟩)
          exact_mod_cast this
        · exact hcq.le
      omega

/-- The clamped per-category allocation never exceeds the remaining hunger
(clamped at zero). -/
theorem ccoresFor_le (hunger count share : Int) (cat : Category) (queued : Nat)
    (hs : 0 ≤ share) (hsc : share ≤ count) :
    ccoresFor hunger count share cat queued ≤ max hunger 0 := by
  unfold ccoresFor
  have := ceil_divInt_le hunger count share hs hsc
  split
  · exact this
  · exact (min_le_left _ _).trans this

/-- Processable category shares sum non-negatively. -/
theorem sizesSumP_nonneg (cfg : Config) (st : Store)
    (hTL : ∀ l, 0 ≤ (st.workLeft l).2.2) (cats : List Category) :
    0 ≤ sizesSumP cfg st cats := by
  apply List.sum_nonneg
  intro x hx
  rcases List.mem_map.mp hx with ⟨c, _, rfl⟩
  exact sizes_nonneg cfg st hTL c.name

/-- Global hunger bound over the category walk: the cores of all newly
popped tasks exceed the entering hunger (clamped at zero) by less than one
task per processed category, as long as the processable shares fit in
`count`. -/
theorem runCats_cores_bound (cfg : Config) (st : Store)
    (queue : List (String × Nat))
    (hPop : ∀ l n tp, (st.popUnits l n tp).length ≤ n)
    (hTL : ∀ l, 0 ≤ (st.workLeft l).2.2) :
    ∀ (cats : List Category) (hunger count : Int),
      sizesSumP cfg st cats ≤ count →
      stepsCores (runCats cfg st queue cats hunger count).2 ≤
        max hunger 0 + stepsSlack (runCats cfg st queue cats hunger count).2 := by
  intro cats
  induction cats with
  | nil =>
    intro hunger count _
    simp only [runCats, stepsCores, stepsSlack, List.map_nil, List.sum_nil]
    omega
  | cons cat rest ih =>
    intro hunger count hcnt
    simp only [runCats]
    split
    case isFalse hproc =>
      apply ih hunger count
      have : sizesSumP cfg st (cat :: rest) = sizesSumP cfg st rest := by
        simp [sizesSumP, processable, List.filter_cons,
          Bool.not_eq_true _ ▸ hproc]
      omega
    case isTrue hproc =>
      have hsplit : sizesSumP cfg st (cat :: rest) =
          sizes cfg st cat.name + sizesSumP cfg st rest := by
        simp [sizesSumP, processable, List.filter_cons, hproc]
      have hrest0 : 0 ≤ sizesSumP cfg st rest := sizesSumP_nonneg cfg st hTL rest
      have hshare0 : 0 ≤ sizes cfg st cat.name := sizes_nonneg cfg st hTL cat.name
      have hshare_le : sizes cfg st cat.name ≤ count := by omega
      set share := sizes cfg st cat.name with hshare
      set cc := ccoresFor hunger count share cat (queueGet queue cat.name) with hccdef
      have hcc : cc ≤ max hunger 0 :=
        ccoresFor_le hunger count share cat (queueGet queue cat.name) hshare0 hshare_le
      set pf := catPairs cfg st cat.name false with hpfdef
      set pt := catPairs cfg st cat.name true with hptdef
      set r1 := runWfs st cat false pf cc hunger share with hr1def
      set r2 := runWfs st cat true pt r1.1 r1.2.1 r1.2.2.1 with hr2def
      have hcat : callsCores cat.cores (r1.2.2.2 ++ r2.2.2.2) ≤
          max cc 0 + max ((cat.cores : Int) - 1) 0 := by
        apply catLoop_cores_bound st cat hPop pf pt cc hunger share
          (catPairs_nonneg cfg st hTL cat.name false)
          (catPairs_nonneg cfg st hTL cat.name true)
        rw [← sizes_eq_pairs]
      have hP0 : 0 ≤ callsCores cat.cores (r1.2.2.2 ++ r2.2.2.2) :=
        callsCores_nonneg _ _
      have hh2 : r2.2.1 = hunger - callsCores cat.cores (r1.2.2.2 ++ r2.2.2.2) := by
        rw [callsCores_append]
        have e1 : r1.2.1 = hunger - callsCores cat.cores r1.2.2.2 :=
          runWfs_hunger st cat false pf cc hunger share
        have e2 : r2.2.1 = r1.2.1 - callsCores cat.cores r2.2.2.2 :=
          runWfs_hunger st cat true pt r1.1 r1.2.1 r1.2.2.1
        omega
      have hrec := ih r2.2.1 (count - share) (by omega)
      simp only [stepsCores, stepsSlack, List.map_cons, List.sum_cons] at *
      omega

/-- Boolean equality on strings is symmetric. -/
theorem strBeq_comm (a b : String) : (a == b) = (b == a) := by
  cases hab : a == b
  · cases hba : b == a
    · rfl
    · rw [beq_iff_eq] at hba
      rw [hba] at hab
      simpa using hab
  · rw [beq_iff_eq] at hab
    rw [hab]
    exact (beq_self_eq_true b).symm

/-- Summing category shares over distinct names is summing the weights of
the included workflows whose category lies among those names. -/
theorem sum_sizes_eq_filter (cfg : Config) (st : Store) :
    ∀ names : List String, names.Nodup →
      (names.map (sizes cfg st)).sum =
        (((included cfg st).filter
            (fun w => names.contains w.category)).map (wweight cfg st)).sum := by
  intro names
  induction names with
  | nil => simp
  | cons n rest ih =>
    intro hnd
    rcases List.nodup_cons.mp hnd with ⟨hn, hrest⟩
    have hpq : ∀ w : Workflow, ((n :: rest).contains w.category) =
        ((w.category == n) || rest.contains w.category) := by
      intro w
      simp only [List.contains_cons]
    have hdisj : ∀ w : Workflow,
        ¬((w.category == n) = true ∧ (rest.contains w.category) = true) := by
      intro w
      rintro ⟨h1, h2⟩
      rw [beq_iff_eq] at h1
      rw [h1] at h2
      exact hn (List.mem_of_elem_eq_true h2)
    simp only [List.map_cons, List.sum_cons]
    rw [ih hrest,
      sum_filter_or (included cfg st)
        (fun w => (n :: rest).contains w.category)
        (fun w => w.category == n)
        (fun w => rest.contains w.category)
        (wweight cfg st) hpq hdisj]
    unfold sizes
    ring

/-- With distinct category names the processable shares of a walk fit into
`count = sum(sizes.values())`. -/
theorem sizesSumP_le_countTotal (cfg : Config) (st : Store)
    (hTL : ∀ l, 0 ≤ (st.workLeft l).2.2) (cats : List Category)
    (hND : (cats.map Category.name).Nodup) :
    sizesSumP cfg st cats ≤ countTotal cfg st := by
  have hsub : ((cats.filter (processable cfg st)).map Category.name).Sublist
      (cats.map Category.name) :=
    (List.filter_sublist _).map Category.name
  have hnd' : ((cats.filter (processable cfg st)).map Category.name).Nodup :=
    hND.sublist hsub
  have heq : sizesSumP cfg st cats =
      (((cats.filter (processable cfg st)).map Category.name).map
        (sizes cfg st)).sum := by
    unfold sizesSumP
    rw [List.map_map]
    rfl
  rw [heq, sum_sizes_eq_filter cfg st _ hnd']
  unfold countTotal
  apply sum_filter_le_sum
  intro w _
  exact wweight_nonneg cfg st hTL w

/-- Claim C2: the total cores of the newly created (non-merge) tasks an
`obtain` call returns stay within the hunger target `H` computed at the
start of the call, up to a rounding excess of (strictly less than) one task
per processed category, provided the store never returns more tasks than
requested, its residual-task estimates are non-negative, and the configured
category names are distinct. -/
theorem C2_hunger_bound (cfg : Config) (st : Store) (total : Nat)
    (queue : List (String × Nat))
    (hPop : ∀ l n tp, (st.popUnits l n tp).length ≤ n)
    (hTL : ∀ l, 0 ≤ (st.workLeft l).2.2)
    (hND : (cfg.categories.map Category.name).Nodup) :
    stepsCores (obtain cfg st total queue).steps ≤
      (obtain cfg st total queue).hunger0 +
        stepsSlack (obtain cfg st total queue).steps := by
  have hndSorted : ((sortCats cfg.categories).map Category.name).Nodup :=
    (((sortCats_perm cfg.categories).map Category.name).nodup_iff).mpr hND
  have hcnt : sizesSumP cfg st (sortCats cfg.categories) ≤ countTotal cfg st :=
    sizesSumP_le_countTotal cfg st hTL (sortCats cfg.categories) hndSorted
  have hbound := runCats_cores_bound cfg st queue hPop hTL
    (sortCats cfg.categories) (hungerInit cfg total queue) (countTotal cfg st)
    hcnt
  have hinit0 : 0 ≤ hungerInit cfg total queue := le_max_right _ _
  simp only [obtain]
  split
  case isTrue h0 =>
    simp only [stepsCores, stepsSlack, List.map_nil, List.sum_nil]
    omega
  case isFalse h0 =>
    split
    · simpa using (by omega : stepsCores
        (runCats cfg st queue (sortCats cfg.categories)
          (hungerInit cfg total queue) (countTotal cfg st)).2 ≤
        hungerInit cfg total queue +
          stepsSlack (runCats cfg st queue (sortCats cfg.categories)
            (hungerInit cfg total queue) (countTotal cfg st)).2)
    · simpa using (by omega : stepsCores
        (runCats cfg st queue (sortCats cfg.categories)
          (hungerInit cfg total queue) (countTotal cfg st)).2 ≤
        hungerInit cfg total queue +
          stepsSlack (runCats cfg st queue (sortCats cfg.categories)
            (hungerInit cfg total queue) (countTotal cfg st)).2)

/-- Witness for claim C2 at the two-workflow scenario with a store handing
out one task per request. -/
theorem C2_hunger_bound_witness :
    (∀ l n tp, (stPopOne.popUnits l n tp).length ≤ n) ∧
    (∀ l, 0 ≤ (stPopOne.workLeft l).2.2) ∧
    ((cfgTwoWflows.categories.map Category.name).Nodup) ∧
    stepsCores (obtain cfgTwoWflows stPopOne 10 []).steps ≤
      (obtain cfgTwoWflows stPopOne 10 []).hunger0 +
        stepsSlack (obtain cfgTwoWflows stPopOne 10 []).steps := by
  have h1 : ∀ l n tp, (stPopOne.popUnits l n tp).length ≤ n := by
    intro l n tp
    rcases n with _ | n <;> simp [stPopOne]
  have h2 : ∀ l, 0 ≤ (stPopOne.workLeft l).2.2 := by
    intro l
    simp only [stPopOne]
    split <;> norm_num
  have h3 : (cfgTwoWflows.categories.map Category.name).Nodup := by decide
  exact ⟨h1, h2, h3, C2_hunger_bound cfgTwoWflows stPopOne 10 [] h1 h2 h3⟩

/-- With distinct names, searching a category list for a member's name finds
that member. -/
theorem find?_cat_of_mem :
    ∀ (l : List Category), (l.map Category.name).Nodup → ∀ c : Category,
      c ∈ l → l.find? (fun d => d.name == c.name) = some c := by
  intro l
  induction l with
  | nil => intro _ c hc; simp at hc
  | cons d tl ih =>
    intro hND c hc
    rw [List.map_cons] at hND
    rcases List.nodup_cons.mp hND with ⟨hd, htl⟩
    rcases List.mem_cons.mp hc with rfl | hc'
    · simp [List.find?_cons]
    · have hne : (d.name == c.name) = false := by
        rw [beq_eq_false_iff_ne]
        intro hEq
        exact hd (hEq ▸ List.mem_map_of_mem Category.name hc')
      simp only [List.find?_cons, hne]
      exact ih htl c hc'

/-- With distinct category names, looking a member category up by name finds
that category. -/
theorem findCat_eq_of_mem (cfg : Config)
    (hND : (cfg.categories.map Category.name).Nodup) (c : Category)
    (hc : c ∈ cfg.categories) : findCat cfg c.name = some c :=
  find?_cat_of_mem cfg.categories hND c hc

/-- With distinct category names, `catCores` at a member category's name is
that category's core count. -/
theorem catCores_eq_of_mem (cfg : Config)
    (hND : (cfg.categories.map Category.name).Nodup) (c : Category)
    (hc : c ∈ cfg.categories) : catCores cfg c.name = c.cores := by
  unfold catCores
  rw [findCat_eq_of_mem cfg hND c hc]
  rfl

/-- Every pair walked by a category loop carries the weight
`⌈tasks_left⌉ · cores(category)` of its label. -/
theorem catPairs_mem_weight (cfg : Config) (st : Store) (name : String)
    (b : Bool) (pr : String × Int) (hpr : pr ∈ catPairs cfg st name b) :
    pr.2 = ⌈(st.workLeft pr.1).2.2⌉ * (catCores cfg name : Int) := by
  unfold catPairs at hpr
  rcases List.mem_map.mp hpr with ⟨w, hw, rfl⟩
  rcases List.mem_filter.mp hw with ⟨_, hcond⟩
  rcases Bool.and_eq_true_iff.mp hcond with ⟨hcat, _⟩
  rw [beq_iff_eq] at hcat
  unfold wweight
  rw [hcat]

/-- Every step recorded by the category walk belongs to a processable
category of the walked list, carries the clamped `ccores` of its recorded
entry state, and its calls are exactly the chained workflow loops started
from that state. -/
theorem runCats_steps_spec (cfg : Config) (st : Store)
    (queue : List (String × Nat)) :
    ∀ (cats : List Category) (h c : Int) (s : CatStep),
      s ∈ (runCats cfg st queue cats h c).2 →
      s.cat ∈ cats ∧ processable cfg st s.cat = true ∧
      s.ccores = ccoresFor s.hungerAt s.countAt (sizes cfg st s.cat.name) s.cat
        (queueGet queue s.cat.name) ∧
      s.pops = catPops cfg st s.cat s.ccores s.hungerAt := by
  intro cats
  induction cats with
  | nil =>
    intro h c s hs
    simp [runCats] at hs
  | cons cat rest ih =>
    intro h c s hs
    simp only [runCats] at hs
    split at hs
    case isTrue hproc =>
      rcases List.mem_cons.mp hs with rfl | hs'
      · exact ⟨List.mem_cons_self _ _, hproc, rfl, rfl⟩
      · have := ih _ _ s hs'
        exact ⟨List.mem_cons_of_mem _ this.1, this.2.1, this.2.2.1, this.2.2.2⟩
    case isFalse hproc =>
      have := ih _ _ s hs
      exact ⟨List.mem_cons_of_mem _ this.1, this.2.1, this.2.2.1, this.2.2.2⟩

/-- Each call in a category's chained loops satisfies the loop equations:
positive `ccores` at call time, the `ntasks` and `taper` formulas evaluated
at the recorded state, a pair from the matching dictionary and the store's
reply. -/
theorem catPops_calls_mem (cfg : Config) (st : Store) (cat : Category)
    (cc h : Int) (p : PopCall) (hp : p ∈ catPops cfg st cat cc h) :
    0 < p.ccoresAt ∧
    p.ntasks = ntasksFor p.ccoresAt p.left p.ctotalAt cat.cores ∧
    p.taper = taperFor p.complete p.left p.ntasks cat.cores ∧
    (p.label, p.left) ∈ catPairs cfg st cat.name p.complete ∧
    p.infos = st.popUnits p.label p.ntasks p.taper := by
  unfold catPops at hp
  rcases List.mem_append.mp hp with hp' | hp'
  · obtain ⟨hcpl, hpos, hnt, htp, hmem, hinf⟩ :=
      runWfs_calls_mem st cat false _ _ _ _ p hp'
    refine ⟨hpos, hnt, ?_, ?_, hinf⟩
    · rw [hcpl]; exact htp
    · rw [hcpl]; exact hmem
  · obtain ⟨hcpl, hpos, hnt, htp, hmem, hinf⟩ :=
      runWfs_calls_mem st cat true _ _ _ _ p hp'
    refine ⟨hpos, hnt, ?_, ?_, hinf⟩
    · rw [hcpl]; exact htp
    · rw [hcpl]; exact hmem

/-- Within one category the incomplete-workflow calls strictly precede the
complete-workflow calls. -/
theorem catPops_pairwise (cfg : Config) (st : Store) (cat : Category)
    (cc h : Int) :
    (catPops cfg st cat cc h).Pairwise
      (fun p q => ¬(p.complete = true ∧ q.complete = false)) := by
  unfold catPops
  apply List.pairwise_append.mpr
  refine ⟨?_, ?_, ?_⟩
  · apply List.pairwise_of_forall_mem_list
    intro p hp q _
    obtain ⟨hcpl, _⟩ := runWfs_calls_mem st cat false _ _ _ _ p hp
    rintro ⟨hc, _⟩
    rw [hcpl] at hc
    exact Bool.false_ne_true hc
  · apply List.pairwise_of_forall_mem_list
    intro p _ q hq
    obtain ⟨hcpl, _⟩ := runWfs_calls_mem st cat true _ _ _ _ q hq
    rintro ⟨_, hc⟩
    rw [hcpl] at hc
    simp at hc
  · intro p hp q _
    obtain ⟨hcpl, _⟩ := runWfs_calls_mem st cat false _ _ _ _ p hp
    rintro ⟨hc, _⟩
    rw [hcpl] at hc
    exact Bool.false_ne_true hc

/-- The categories recorded by the walk are exactly the walked list
restricted to processable categories, in order. -/
theorem runCats_steps_cats (cfg : Config) (st : Store)
    (queue : List (String × Nat)) :
    ∀ (cats : List Category) (h c : Int),
      ((runCats cfg st queue cats h c).2.map CatStep.cat) =
        cats.filter (fun cat => catPresent cfg st cat.name && cat.name != "merge") := by
  intro cats
  induction cats with
  | nil => intro h c; simp [runCats]
  | cons cat rest ih =>
    intro h c
    simp only [runCats, List.filter_cons]
    split
    case isTrue hproc =>
      simp only [hproc, if_true, List.map_cons]
      rw [ih]
    case isFalse hproc =>
      exact ih _ _

/-- Every step of an `obtain` trace is a step of the category walk started
at the initial hunger. -/
theorem obtain_steps_mem (cfg : Config) (st : Store) (total : Nat)
    (queue : List (String × Nat)) (s : CatStep)
    (hs : s ∈ (obtain cfg st total queue).steps) :
    s ∈ (runCats cfg st queue (sortCats cfg.categories)
      (hungerInit cfg total queue) (countTotal cfg st)).2 := by
  simp only [obtain] at hs
  split at hs
  · simp at hs
  · split at hs <;> exact hs

/-- With non-zero hunger the trace records the category walk verbatim. -/
theorem obtain_steps_eq (cfg : Config) (st : Store) (total : Nat)
    (queue : List (String × Nat))
    (hh : (obtain cfg st total queue).hunger0 ≠ 0) :
    (obtain cfg st total queue).steps =
      (runCats cfg st queue (sortCats cfg.categories)
        (hungerInit cfg total queue) (countTotal cfg st)).2 := by
  rw [obtain_hunger0] at hh
  simp only [obtain]
  split
  case isTrue h0 => exact absurd h0 hh
  case isFalse h0 => split <;> rfl

/-- A category entered with non-positive `ccores` issues no calls. -/
theorem catPops_nil (cfg : Config) (st : Store) (cat : Category)
    (cc h : Int) (hcc : cc ≤ 0) : catPops cfg st cat cc h = [] := by
  unfold catPops
  have h1 : (runWfs st cat false (catPairs cfg st cat.name false) cc h
      (sizes cfg st cat.name)).2.2.2 = [] :=
    runWfs_calls_nil st cat false _ _ _ _ hcc
  have h2 : (runWfs st cat false (catPairs cfg st cat.name false) cc h
      (sizes cfg st cat.name)).1 = cc := by
    rw [runWfs_ccores, h1]
    simp [callsCores]
  rw [h1, h2, runWfs_calls_nil st cat true _ _ _ _ hcc]
  rfl

/-- Cap bound for one category: when the clamp `(cap − queued)·cores` is in
force, the number of tasks popped for the category stays within the
remaining cap capacity. -/
theorem catPops_count_bound (cfg : Config) (st : Store) (cat : Category)
    (cc h : Int) (q : Nat)
    (hPop : ∀ l n tp, (st.popUnits l n tp).length ≤ n)
    (hTL : ∀ l, 0 ≤ (st.workLeft l).2.2)
    (hcc : cc ≤ ((cat.tasks : Int) - (q : Int)) * (cat.cores : Int)) :
    callsCount (catPops cfg st cat cc h) ≤ max ((cat.tasks : Int) - (q : Int)) 0 := by
  have hcores := catLoop_cores_bound st cat hPop
    (catPairs cfg st cat.name false) (catPairs cfg st cat.name true)
    cc h (sizes cfg st cat.name)
    (catPairs_nonneg cfg st hTL cat.name false)
    (catPairs_nonneg cfg st hTL cat.name true)
    (le_of_eq (sizes_eq_pairs cfg st cat.name).symm)
  have hceq : callsCores cat.cores (catPops cfg st cat cc h) =
      callsCount (catPops cfg st cat cc h) * (cat.cores : Int) :=
    callsCores_eq_count _ _
  rcases Nat.eq_zero_or_pos cat.cores with hz | hcpos
  · have hcc0 : cc ≤ 0 := by
      rw [hz] at hcc
      simpa using hcc
    rw [catPops_nil cfg st cat cc h hcc0]
    simp only [callsCount, List.map_nil, List.sum_nil]
    omega
  · have hb : (1 : Int) ≤ (cat.cores : Int) := by exact_mod_cast hcpos
    rcases le_or_lt ((cat.tasks : Int) - (q : Int)) 0 with hneg | hpos
    · have hcc0 : cc ≤ 0 :=
        hcc.trans (mul_nonpos_iff.mpr (Or.inr ⟨hneg, by omega⟩))
      rw [catPops_nil cfg st cat cc h hcc0]
      simp only [callsCount, List.map_nil, List.sum_nil]
      omega
    · have hcores' : callsCores cat.cores (catPops cfg st cat cc h) ≤
          ((cat.tasks : Int) - (q : Int)) * (cat.cores : Int) +
            ((cat.cores : Int) - 1) := by
        have hcap0 : (0 : Int) ≤ ((cat.tasks : Int) - (q : Int)) * (cat.cores : Int) :=
          mul_nonneg (by omega) (by omega)
        unfold catPops
        omega
      rw [hceq] at hcores'
      have hlt : callsCount (catPops cfg st cat cc h) * (cat.cores : Int) <
          (((cat.tasks : Int) - (q : Int)) + 1) * (cat.cores : Int) := by
        have : (((cat.tasks : Int) - (q : Int)) + 1) * (cat.cores : Int) =
            ((cat.tasks : Int) - (q : Int)) * (cat.cores : Int) + (cat.cores : Int) := by
          ring
        omega
      have := (mul_lt_mul_right (by omega : (0 : Int) < (cat.cores : Int))).mp hlt
      omega

/-- Claim C5, amended: within each processed category the incomplete
workflows are walked (and popped) before the complete ones; each issued
`pop_units(label, ntasks, taper)` call satisfies
`ntasks = max(1, ⌈ccores·w/(ctotal·cores)⌉)` at the loop state it was issued
in, where `w = ⌈tasks_left⌉·cores` is the workflow's stored share weight
(not its `units_left`), and `taper = min(1, w/(ntasks·cores))` for complete
workflows and `1` for incomplete ones. -/
theorem C5_amended_allocation (cfg : Config) (st : Store) (total : Nat)
    (queue : List (String × Nat))
    (hND : (cfg.categories.map Category.name).Nodup) :
    ∀ s ∈ (obtain cfg st total queue).steps,
      (∀ p ∈ s.pops,
        p.ntasks = ntasksFor p.ccoresAt p.left p.ctotalAt s.cat.cores ∧
        p.taper = taperFor p.complete p.left p.ntasks s.cat.cores ∧
        p.left = ⌈(st.workLeft p.label).2.2⌉ * (s.cat.cores : Int)) ∧
      s.pops.Pairwise (fun p q => ¬(p.complete = true ∧ q.complete = false)) := by
  intro s hs
  obtain ⟨hmem, _, _, hpops⟩ := runCats_steps_spec cfg st queue _ _ _ s
    (obtain_steps_mem cfg st total queue s hs)
  have hcat : s.cat ∈ cfg.categories := (sortCats_perm cfg.categories).mem_iff.mp hmem
  constructor
  · intro p hp
    rw [hpops] at hp
    obtain ⟨_, hnt, htp, hpr, _⟩ := catPops_calls_mem cfg st s.cat _ _ p hp
    refine ⟨hnt, htp, ?_⟩
    have := catPairs_mem_weight cfg st s.cat.name p.complete (p.label, p.left) hpr
    rw [catCores_eq_of_mem cfg hND s.cat hcat] at this
    exact this
  · rw [hpops]
    exact catPops_pairwise cfg st s.cat _ _

/-- Witness for the amended claim C5: the first call of the
`cfgTwoWflows`/`stPopOne` run satisfies the loop equations with the
weight-based formulas. -/
theorem C5_amended_allocation_witness :
    pW1.ntasks = ntasksFor pW1.ccoresAt pW1.left pW1.ctotalAt sW.cat.cores ∧
    pW1.taper = taperFor pW1.complete pW1.left pW1.ntasks sW.cat.cores ∧
    pW1.left = ⌈(stPopOne.workLeft pW1.label).2.2⌉ * (sW.cat.cores : Int) :=
  (C5_amended_allocation cfgTwoWflows stPopOne 10 [] (by decide)
    sW (by decide)).1 pW1 (by decide)

/-- Claim C6: the category walk processes exactly the sorted configured
categories — capped categories first in ascending `tasks·cores` (the
smallest task limit first), uncapped last — restricted to categories with an
included workflow and excluding the reserved `'merge'` name. -/
theorem C6_category_walk (cfg : Config) (st : Store) (total : Nat)
    (queue : List (String × Nat))
    (hh : (obtain cfg st total queue).hunger0 ≠ 0) :
    ((obtain cfg st total queue).steps.map CatStep.cat =
      (sortCats cfg.categories).filter
        (fun c => catPresent cfg st c.name && c.name != "merge")) ∧
    (sortCats cfg.categories).Perm cfg.categories ∧
    ((obtain cfg st total queue).steps.map CatStep.cat).Pairwise
      (fun a b => keyBefore (catKey a) (catKey b) = true) := by
  have hsteps := obtain_steps_eq cfg st total queue hh
  have hcats := runCats_steps_cats cfg st queue (sortCats cfg.categories)
    (hungerInit cfg total queue) (countTotal cfg st)
  refine ⟨by rw [hsteps, hcats], sortCats_perm cfg.categories, ?_⟩
  rw [hsteps, hcats]
  exact (sortCats_pairwise cfg.categories).filter _

/-- Witness for claim C6 at the `cfgTwoWflows`/`stPopOne` scenario. -/
theorem C6_category_walk_witness :
    ((obtain cfgTwoWflows stPopOne 10 []).steps.map CatStep.cat =
      (sortCats cfgTwoWflows.categories).filter
        (fun c => catPresent cfgTwoWflows stPopOne c.name && c.name != "merge")) ∧
    (sortCats cfgTwoWflows.categories).Perm cfgTwoWflows.categories ∧
    ((obtain cfgTwoWflows stPopOne 10 []).steps.map CatStep.cat).Pairwise
      (fun a b => keyBefore (catKey a) (catKey b) = true) :=
  C6_category_walk cfgTwoWflows stPopOne 10 [] (by decide)

/-- Claim C7: each processed category receives
`ccores = ⌈hunger·share/count⌉` at its recorded entry state, clamped by
`(cap − queued)·cores` when capped; consequently a capped category never
pops more new tasks than its remaining cap capacity. -/
theorem C7_ccores_and_cap (cfg : Config) (st : Store) (total : Nat)
    (queue : List (String × Nat))
    (hPop : ∀ l n tp, (st.popUnits l n tp).length ≤ n)
    (hTL : ∀ l, 0 ≤ (st.workLeft l).2.2) :
    ∀ s ∈ (obtain cfg st total queue).steps,
      s.ccores = ccoresFor s.hungerAt s.countAt (sizes cfg st s.cat.name) s.cat
        (queueGet queue s.cat.name) ∧
      (s.cat.tasks ≠ 0 →
        callsCount s.pops ≤
          max ((s.cat.tasks : Int) - (queueGet queue s.cat.name : Int)) 0) := by
  intro s hs
  obtain ⟨_, _, hcc, hpops⟩ := runCats_steps_spec cfg st queue _ _ _ s
    (obtain_steps_mem cfg st total queue s hs)
  refine ⟨hcc, ?_⟩
  intro hcap
  rw [hpops]
  apply catPops_count_bound cfg st s.cat s.ccores s.hungerAt
    (queueGet queue s.cat.name) hPop hTL
  rw [hcc]
  unfold ccoresFor
  have : (s.cat.tasks == 0) = false := by
    rw [beq_eq_false_iff_ne]
    exact hcap
  simp only [this, if_false]
  exact min_le_right _ _

/-- Witness for claim C7 at the capped scenario: the clamped allocation of
2 cores admits exactly the 2 tasks of remaining cap capacity. -/
theorem C7_ccores_and_cap_witness :
    sCap.ccores = ccoresFor sCap.hungerAt sCap.countAt
      (sizes cfgCapped stPopOne sCap.cat.name) sCap.cat
      (queueGet [("a", 1)] sCap.cat.name) ∧
    (sCap.cat.tasks ≠ 0 →
      callsCount sCap.pops ≤
        max ((sCap.cat.tasks : Int) - (queueGet [("a", 1)] sCap.cat.name : Int)) 0) := by
  refine C7_ccores_and_cap cfgCapped stPopOne 10 [("a", 1)] ?_ ?_ sCap (by decide)
  · intro l n tp
    rcases n with _ | n <;> simp [stPopOne]
  · intro l
    simp only [stPopOne]
    split <;> norm_num

/-- Looking up the key just set yields the set value. -/
theorem dGet_dSet_self {α β : Type} [BEq α] [LawfulBEq α]
    (m : List (α × β)) (k : α) (v : β) : dGet (dSet m k v) k = some v := by
  induction m with
  | nil => simp [dGet, dSet]
  | cons p rest ih =>
    obtain ⟨k', v'⟩ := p
    simp only [dSet]
    split
    case isTrue hk => simp [dGet]
    case isFalse hk => simpa [dGet, hk] using ih

/-- Setting one key leaves other keys' lookups unchanged. -/
theorem dGet_dSet_ne {α β : Type} [BEq α] [LawfulBEq α]
    (m : List (α × β)) (k k2 : α) (v : β) (hne : k2 ≠ k) :
    dGet (dSet m k v) k2 = dGet m k2 := by
  induction m with
  | nil =>
    simp only [dSet, dGet]
    have : (k == k2) = false := by
      rw [beq_eq_false_iff_ne]
      exact fun h => hne h.symm
    simp [this]
  | cons p rest ih =>
    obtain ⟨k', v'⟩ := p
    simp only [dSet]
    split
    case isTrue hk =>
      rw [beq_iff_eq] at hk
      have hk2 : (k == k2) = false := by
        rw [beq_eq_false_iff_ne]
        exact fun h => hne h.symm
      have hk2' : (k' == k2) = false := by
        rw [beq_eq_false_iff_ne, hk]
        exact fun h => hne h.symm
      simp [dGet, hk2, hk2']
    case isFalse hk =>
      simp only [dGet]
      split
      · rfl
      · exact ih

/-- Deleting a key makes its lookup fail. -/
theorem dGet_dDel_self {α β : Type} [BEq α] [LawfulBEq α]
    (m : List (α × β)) (k : α) : dGet (dDel m k) k = none := by
  induction m with
  | nil => simp [dDel, dGet]
  | cons p rest ih =>
    obtain ⟨k', v'⟩ := p
    simp only [dDel, List.filter_cons]
    split
    case isTrue hk =>
      simp only [Bool.not_eq_true', beq_eq_false_iff_ne] at hk
      have : (k' == k) = false := by
        rw [beq_eq_false_iff_ne]
        exact hk
      simpa [dGet, this] using ih
    case isFalse hk =>
      simpa [dDel] using ih

/-- Deletion preserves absence of any key. -/
theorem dGet_dDel_of_none {α β : Type} [BEq α] [LawfulBEq α]
    (m : List (α × β)) (k t : α) (h : dGet m k = none) :
    dGet (dDel m t) k = none := by
  induction m with
  | nil => simp [dDel, dGet]
  | cons p rest ih =>
    obtain ⟨k', v'⟩ := p
    simp only [dGet] at h
    split at h
    · exact absurd h (by simp)
    case isFalse hk =>
      simp only [dDel, List.filter_cons]
      split
      · simpa [dGet, hk] using ih h
      · simpa [dDel] using ih h

/-- The per-task loop body only ever deletes the processed tag from the
handler map. -/
theorem processOne_handlers (cfg : Config) (s : ReleaseState) (tag : Nat)
    (h : Handler) : (processOne cfg s tag h).handlers = dDel s.handlers tag := by
  simp only [processOne]
  repeat' split
  all_goals rfl

/-- The release loop preserves absence of a key from the handler map. -/
theorem releaseLoop_absent (cfg : Config) :
    ∀ (tags : List Nat) (s s' : ReleaseState),
      releaseLoop cfg s tags = .ok s' → ∀ k, dGet s.handlers k = none →
      dGet s'.handlers k = none := by
  intro tags
  induction tags with
  | nil =>
    intro s s' hrl k hk
    simp only [releaseLoop] at hrl
    cases hrl
    exact hk
  | cons tag rest ih =>
    intro s s' hrl k hk
    simp only [releaseLoop] at hrl
    split at hrl
    · cases hrl
    case h_2 h hh =>
      apply ih _ _ hrl
      rw [processOne_handlers]
      exact dGet_dDel_of_none _ _ _ hk

/-- After a successful release loop every processed tag is gone from the
handler map. -/
theorem releaseLoop_deletes (cfg : Config) :
    ∀ (tags : List Nat) (s s' : ReleaseState),
      releaseLoop cfg s tags = .ok s' → ∀ t ∈ tags, dGet s'.handlers t = none := by
  intro tags
  induction tags with
  | nil =>
    intro s s' _ t ht
    simp at ht
  | cons tag rest ih =>
    intro s s' hrl t ht
    simp only [releaseLoop] at hrl
    split at hrl
    · cases hrl
    case h_2 h hh =>
      rcases List.mem_cons.mp ht with rfl | ht'
      · apply releaseLoop_absent cfg rest _ _ hrl
        rw [processOne_handlers]
        exact dGet_dDel_self _ _
      · exact ih _ _ hrl t ht'

/-- A tag absent from the handler map aborts the loop with a lookup error at
that tag. -/
theorem releaseLoop_error_of_absent (cfg : Config) (s : ReleaseState)
    (t : Nat) (rest : List Nat) (h : dGet s.handlers t = none) :
    releaseLoop cfg s (t :: rest) = .error t := by
  simp [releaseLoop, h]

/-- Folding the propagation update over a dependent list leaves unrelated
keys untouched. -/
theorem foldl_propagate_notmem (k : String) (v : Nat) :
    ∀ (deps : List String) (pr : List (String × List (String × Nat)))
      (dep : String), dep ∉ deps →
      dGet (deps.foldl
        (fun pr' d => dSet pr' d (dSet ((dGet pr' d).getD []) k v)) pr) dep =
      dGet pr dep := by
  intro deps
  induction deps with
  | nil => intro pr dep _; rfl
  | cons d ds ih =>
    intro pr dep hdep
    simp only [List.foldl_cons]
    rw [ih _ _ (fun hmem => hdep (List.mem_cons_of_mem _ hmem))]
    exact dGet_dSet_ne _ _ _ _ (fun hEq => hdep (hEq ▸ List.mem_cons_self _ _))

/-- Folding the propagation update over a dependent list records the file
info under every dependent's entry. -/
theorem foldl_propagate_mem (k : String) (v : Nat) :
    ∀ (deps : List String) (pr : List (String × List (String × Nat)))
      (dep : String), dep ∈ deps →
      dGet ((deps.foldl
        (fun pr' d => dSet pr' d (dSet ((dGet pr' d).getD []) k v)) pr).map id |>.map id) dep =
        dGet (deps.foldl
          (fun pr' d => dSet pr' d (dSet ((dGet pr' d).getD []) k v)) pr) dep ∧
      dGet (((dGet (deps.foldl
        (fun pr' d => dSet pr' d (dSet ((dGet pr' d).getD []) k v)) pr) dep).getD [])) k =
        some v := by
  intro deps
  induction deps with
  | nil => intro pr dep hdep; simp at hdep
  | cons d ds ih =>
    intro pr dep hdep
    refine ⟨by simp, ?_⟩
    simp only [List.foldl_cons]
    by_cases hds : dep ∈ ds
    · exact (ih _ dep hds).2
    · rcases List.mem_cons.mp hdep with rfl | hds'
      · rw [foldl_propagate_notmem k v ds _ dep hds, dGet_dSet_self]
        simp only [Option.getD_some]
        exact dGet_dSet_self _ _ _
      · exact absurd hds' hds

/-- Claim C8: for every completed task processed by `release`, a failed
classification moves the task directory to `failed/` and queues its output
files for removal without propagating anything; a successful one moves the
directory to `successful/` and records the output info in every dependent
workflow's pending map exactly when the task is a merge task or its
workflow's `merge_size` is at most zero. -/
theorem C8_release_classification (cfg : Config) (s : ReleaseState)
    (tag : Nat) (h : Handler) (wf : Workflow)
    (hwf : findWflow cfg h.dataset = some wf) (_hout : h.outputs ≠ []) :
    (h.procFailed = true →
      (processOne cfg s tag h).moves = s.moves ++ [(h.dataset, h.id, "failed")] ∧
      (processOne cfg s tag h).cleanup = s.cleanup ++ h.outputs.map Prod.snd ∧
      (processOne cfg s tag h).propagate = s.propagate) ∧
    (h.procFailed = false →
      (processOne cfg s tag h).moves = s.moves ++ [(h.dataset, h.id, "successful")] ∧
      ((h.isMerge = true ∨ wf.merge_size ≤ 0) →
        ∀ dep ∈ wf.dependents,
          dGet ((dGet (processOne cfg s tag h).propagate dep).getD [])
            (outfnOf h) = some h.output_info) ∧
      (h.isMerge = false → 0 < wf.merge_size →
        (processOne cfg s tag h).propagate = s.propagate)) := by
  constructor
  · intro hfail
    simp [processOne, hfail]
  · intro hokk
    simp only [processOne, hokk, Bool.false_eq_true, if_false, hwf,
      Option.getD_some]
    refine ⟨?_, ?_, ?_⟩
    · repeat' split
      all_goals rfl
    · intro hprop dep hdep
      have hcond : (decide (wf.merge_size ≤ 0) || h.isMerge) = true := by
        rcases hprop with hm | hm
        · simp [hm]
        · simp [hm]
      simp only [hcond, if_true]
      split
      · exact (foldl_propagate_mem (outfnOf h) h.output_info
          wf.dependents s.propagate dep hdep).2
      · exact (foldl_propagate_mem (outfnOf h) h.output_info
          wf.dependents s.propagate dep hdep).2
    · intro hm hms
      have hcond : (decide (wf.merge_size ≤ 0) || h.isMerge) = false := by
        simp [hm]
        omega
      have hms' : ¬ wf.merge_size ≤ 0 := by omega
      simp [hcond, hm, hms']

/-- Witness for claim C8 at the `cfgRel` fixtures: the successful non-merge
handler of the `merge_size = 0` workflow propagates into both children. -/
theorem C8_release_classification_witness :
    (hOk.procFailed = true →
      (processOne cfgRel (initState [(3, hOk)]) 3 hOk).moves =
        (initState [(3, hOk)]).moves ++ [(hOk.dataset, hOk.id, "failed")] ∧
      (processOne cfgRel (initState [(3, hOk)]) 3 hOk).cleanup =
        (initState [(3, hOk)]).cleanup ++ hOk.outputs.map Prod.snd ∧
      (processOne cfgRel (initState [(3, hOk)]) 3 hOk).propagate =
        (initState [(3, hOk)]).propagate) ∧
    (hOk.procFailed = false →
      (processOne cfgRel (initState [(3, hOk)]) 3 hOk).moves =
        (initState [(3, hOk)]).moves ++ [(hOk.dataset, hOk.id, "successful")] ∧
      ((hOk.isMerge = true ∨ wRel.merge_size ≤ 0) →
        ∀ dep ∈ wRel.dependents,
          dGet ((dGet (processOne cfgRel (initState [(3, hOk)]) 3 hOk).propagate
            dep).getD []) (outfnOf hOk) = some hOk.output_info) ∧
      (hOk.isMerge = false → 0 < wRel.merge_size →
        (processOne cfgRel (initState [(3, hOk)]) 3 hOk).propagate =
          (initState [(3, hOk)]).propagate)) :=
  C8_release_classification cfgRel (initState [(3, hOk)]) 3 hOk wRel
    (by decide) (by decide)

/-- Claim C9: an `IOError`, `OSError` or `ValueError` raised by the queued
`fs.remove` is absorbed: the whole `release` call — including the
`update_units` batch it applies and the `register_files` calls it makes —
behaves exactly as if the removal had succeeded. -/
theorem C9_remove_errors_absorbed (cfg : Config)
    (handlers : List (Nat × Handler)) (tasks : List Nat) (o : RemoveOutcome)
    (ho : o ≠ RemoveOutcome.otherError) :
    release cfg handlers tasks o = release cfg handlers tasks RemoveOutcome.ok := by
  unfold release
  rcases hrl : releaseLoop cfg (initState handlers) tasks with t | s
  · rfl
  · have hne : (o == RemoveOutcome.otherError) = false := by
      rcases o <;> simp_all
    simp [hne]

/-- Witness for claim C9: an `IOError` during cleanup leaves the release
outcome unchanged. -/
theorem C9_remove_errors_absorbed_witness :
    release cfgRel [(3, hOk)] [3] RemoveOutcome.ioError =
      release cfgRel [(3, hOk)] [3] RemoveOutcome.ok :=
  C9_remove_errors_absorbed cfgRel [(3, hOk)] [3] RemoveOutcome.ioError
    (by decide)

/-- Claim C10: a tag released once is deleted from the handler map, so a
second `release` naming the same tag (or any tag never issued) fails with a
lookup error instead of applying the task's updates again. -/
theorem C10_at_most_once_release (cfg : Config)
    (handlers : List (Nat × Handler)) (tags : List Nat) (t : Nat)
    (hok : (releaseLoop cfg (initState handlers) tags).isOk = true)
    (ht : t ∈ tags) :
    dGet (handlersAfter cfg handlers tags) t = none ∧
    ∀ (rest : List Nat) (o : RemoveOutcome),
      release cfg (handlersAfter cfg handlers tags) (t :: rest) o =
        .error (.keyError t) := by
  unfold handlersAfter
  rcases hrl : releaseLoop cfg (initState handlers) tags with t' | s
  · rw [hrl] at hok
    simp [Except.isOk, Except.toBool] at hok
  · have habs : dGet s.handlers t = none :=
      releaseLoop_deletes cfg tags _ s hrl t ht
    refine ⟨habs, ?_⟩
    intro rest o
    unfold release
    rw [releaseLoop_error_of_absent cfg (initState s.handlers) t rest habs]

/-- Witness for claim C10: releasing tag 3 and then releasing it again
yields the lookup error. -/
theorem C10_at_most_once_release_witness :
    dGet (handlersAfter cfgRel [(3, hOk)] [3]) 3 = none ∧
    ∀ (rest : List Nat) (o : RemoveOutcome),
      release cfgRel (handlersAfter cfgRel [(3, hOk)] [3]) (3 :: rest) o =
        .error (.keyError 3) :=
  C10_at_most_once_release cfgRel [(3, hOk)] [3] 3 (by decide)
    (by decide)

/-- Claim C5, counterexample: in the `cfgTwoWflows` scenario the category
walk starts with `hunger = ccores = 11`, category share weights
`⌈tasks_left⌉·cores` of 1 (`w1`) and 10 (`w2`) totalling 11, while the
store's `units_left` numbers are 100 (`w1`) and 10 (`w2`) totalling 110.
The code calls `pop_units("w1", 1)` (from the weights), whereas the claimed
formula `max(1, ⌈ccores·units_left/(category_total_units·cores)⌉)` computed
from `units_left` predicts 10 tasks for `w1`. -/
theorem C5_counterexample :
    (obtainCalls cfgTwoWflows stTwoWflows 10 []).map
        (fun p => (p.label, p.ntasks)) = [("w1", 1), ("w2", 11)] ∧
    ntasksClaim 11 100 110 1 = 10 := by
  refine ⟨by decide, by decide⟩

end Lobster
